import Mathlib

/-!
# Verification of the medialog bulk-ingestion and tag subsystem

This file gives a shallow embedding of the legacy (backward-compatible) HTTP
handlers of the medialog server (`server.js` / the legacy routes of
`server-new.js`) together with the tag helpers `parseTagsInput`,
`setMediaTags` and the SQLite state they manipulate, and proves properties
of the bulk endpoint `POST /api/media/bulk`, the year query
`GET /api/media?year=Y`, the delete endpoint `DELETE /api/media/:id`, and
the tag-normalization pipeline.

Modelling conventions:
* SQLite tables become Lean lists; `AUTOINCREMENT` ids become explicit
  `nextMediaId` / `nextTagId` counters.
* Strings are Lean `String`s; the JavaScript operations `trim`,
  `toLowerCase`, `split(',')` and `parseInt` are re-implemented character
  by character (`jsTrim`, `jsToLower`, `jsParseInt`) following their
  ECMAScript behaviour on the value domain the server actually handles.
* A JSON field that may be absent/null is an `Option`; a `tags` payload is
  either a string, an array (whose elements may fail to be strings - in
  which case `tag.trim()` throws a `TypeError` at runtime), or some other
  JSON value (for which `parseTagsInput` returns `[]`).
* Exceptions become `Except`/explicit error results; the per-item
  `try/catch` of the bulk loop and the outer transaction `ROLLBACK` are
  modelled exactly as in the source.
* SQLite's `strftime('%Y', d)` returns NULL for strings that do not parse
  as dates (digits in the right places with month 01-12 and day 01-31);
  this is modelled by `sqlYearStr : String → Option String`, and the SQL
  comparisons propagate NULL as "no match" exactly like the `WHERE`
  clause does.
-/

/-! ## Character and string helpers (ECMAScript semantics) -/

/-- Whitespace as recognised by JavaScript `trim` / `parseInt` on the ASCII
range: space, tab, line feed, vertical tab, form feed, carriage return. -/
def isWs (c : Char) : Bool :=
  c.toNat = 32 || c.toNat = 9 || c.toNat = 10 || c.toNat = 11 ||
  c.toNat = 13 || c.toNat = 12

/-- ASCII decimal digit test (`\d` of the validation regexes). -/
def isDigitB (c : Char) : Bool :=
  48 ≤ c.toNat && c.toNat ≤ 57

/-- Numeric value of an ASCII digit character. -/
def digitVal (c : Char) : Nat := c.toNat - 48

/-- `String.prototype.toLowerCase` on one character (ASCII range; the
server's tag data is ASCII). -/
def lowerChar (c : Char) : Char :=
  if 65 ≤ c.toNat ∧ c.toNat ≤ 90 then Char.ofNat (c.toNat + 32) else c

/-- Drop trailing whitespace of a character list. -/
def dropTrailWs (l : List Char) : List Char :=
  ((l.reverse.dropWhile isWs)).reverse

/-- `String.prototype.trim`. -/
def jsTrim (s : String) : String :=
  ⟨dropTrailWs (s.data.dropWhile isWs)⟩

/-- `String.prototype.toLowerCase`. -/
def jsToLower (s : String) : String :=
  ⟨s.data.map lowerChar⟩

/-- `tag.trim().toLowerCase()` - the normalization applied to every raw
tag name by `parseTagsInput` and by `setMediaTags`. -/
def normalizeTag (s : String) : String :=
  jsToLower (jsTrim s)

/-- Byte-wise lexicographic strict order on character lists: SQLite's
default BINARY collation restricted to ASCII text (code-point order). -/
def lexLt : List Char → List Char → Bool
  | [], [] => false
  | [], _ :: _ => true
  | _ :: _, [] => false
  | a :: as, b :: bs =>
    if a.toNat < b.toNat then true
    else if b.toNat < a.toNat then false
    else lexLt as bs

/-- `String.prototype.split(',')` on the character list: tokens between
comma occurrences (an empty string yields one empty token, like JS). -/
def splitComma : List Char → List Char → List String
  | [], acc => [⟨acc.reverse⟩]
  | c :: rest, acc =>
    if c = ',' then ⟨acc.reverse⟩ :: splitComma rest []
    else splitComma rest (c :: acc)

/-- Value of a most-significant-first digit-character list. -/
def digitsVal : List Char → Nat
  | [] => 0
  | c :: cs => digitVal c * 10 ^ cs.length + digitsVal cs

/-! ## Data model

The SQLite schema (`media`, `tags`, `media_tags` from
`migrateToManyToManyTags`) as Lean data. -/

/-- One row of the `media` table.  `end_date = none` is SQL NULL;
`end_date = some ""` is an empty string stored verbatim (the legacy
handlers store the payload value unchanged). -/
structure MediaRow where
  id : Nat
  title : String
  author : String
  media_type : String
  start_date : String
  end_date : Option String
  volume_episode : String
  notes : String
  discontinued : Bool
deriving Repr, DecidableEq

/-- The persistent state: the `media` table, the `tags` table
(id, name - `name` is `NOT NULL UNIQUE`), the `media_tags` junction
table (media_id, tag_id - `PRIMARY KEY (media_id, tag_id)`), and the
`AUTOINCREMENT` counters of the two id columns. -/
structure Db where
  media : List MediaRow
  tags : List (Nat × String)
  mediaTags : List (Nat × Nat)
  nextMediaId : Nat
  nextTagId : Nat
deriving Repr, DecidableEq

/-- The empty database right after the migrations ran (`AUTOINCREMENT`
starts assigning ids at 1). -/
def emptyDb : Db :=
  { media := [], tags := [], mediaTags := [], nextMediaId := 1, nextTagId := 1 }

/-- An element of a JSON `tags` array: either a string or some non-string
JSON value (on which `tag.trim()` throws `TypeError`). -/
inductive JTag where
  | s (v : String)
  | nonString
deriving Repr, DecidableEq

/-- The JSON value of a `tags` field: a (comma separated) string, an
array, or any other JSON value (number, object, ... - `parseTagsInput`
returns `[]` for those).  An absent field defaults to `''`, i.e.
`strInput ""`. -/
inductive TagsInput where
  | strInput (v : String)
  | arrInput (xs : List JTag)
  | otherInput
deriving Repr, DecidableEq

/-- A raw bulk item as destructured by the handler.  `none` in
`title`/`media_type`/`start_date` stands for an absent (or otherwise
falsy) field; `author`/`volume_episode`/`notes`/`discontinued` carry the
value after the destructuring defaults (`''` resp. `false`). -/
structure RawItem where
  title : Option String
  author : String
  media_type : Option String
  start_date : Option String
  end_date : Option String
  volume_episode : String
  tags : TagsInput
  notes : String
  discontinued : Bool
deriving Repr, DecidableEq

/-- JavaScript truthiness of an optional string field (`!title` is true
for an absent field and for the empty string). -/
def truthy : Option String → Bool
  | none => false
  | some s => !(s == "")

/-- A `results.success` entry: `{index, id, title}`. -/
structure SuccessEntry where
  index : Nat
  id : Nat
  title : String
deriving Repr, DecidableEq

/-- A `results.failed` entry: `{index, title, error}`. -/
structure FailEntry where
  index : Nat
  title : String
  error : String
deriving Repr, DecidableEq

/-! ## Tag helpers (`parseTagsInput`, `setMediaTags`) -/

/-- `parseTagsInput` (server-new.js lines 207-220): accepts an array or a
comma-separated string, maps `tag.trim().toLowerCase()` over the tokens
and keeps the non-empty ones.  A non-string element of an array makes
`tag.trim()` throw (`Except.error`); any other input shape yields `[]`. -/
def parseTagsInput : TagsInput → Except String (List String)
  | .strInput v =>
    .ok (((splitComma v.data []).map normalizeTag).filter (fun t => t.length > 0))
  | .arrInput xs => do
    let mapped ← xs.mapM (fun t =>
      match t with
      | .s v => Except.ok (normalizeTag v)
      | .nonString => Except.error "tag.trim is not a function")
    pure (mapped.filter (fun t => t.length > 0))
  | .otherInput => .ok []

/-- `INSERT INTO media_tags (media_id, tag_id) VALUES (?, ?)` with the
`UNIQUE constraint failed` error swallowed (server-new.js lines 193-203):
inserting an existing pair is a no-op. -/
def insertAssoc (mediaId tagId : Nat) (db : Db) : Db :=
  if (mediaId, tagId) ∈ db.mediaTags then db
  else { db with mediaTags := db.mediaTags ++ [(mediaId, tagId)] }

/-- One iteration of the `setMediaTags` loop (server-new.js lines
179-204): normalize the name, skip it if empty, get-or-create the tag
row, then insert the association. -/
def addTag (mediaId : Nat) (tagName : String) (db : Db) : Db :=
  let trimmedTag := normalizeTag tagName
  if trimmedTag.length = 0 then db
  else
    match db.tags.find? (fun p => p.2 == trimmedTag) with
    | some p => insertAssoc mediaId p.1 db
    | none =>
      insertAssoc mediaId db.nextTagId
        { db with tags := db.tags ++ [(db.nextTagId, trimmedTag)],
                  nextTagId := db.nextTagId + 1 }

/-- `setMediaTags(mediaId, tagNames)` (server-new.js lines 169-205):
delete every association of `mediaId`, then run the loop.  (The early
return on an empty `tagNames` is the same as folding over `[]`.) -/
def setMediaTags (mediaId : Nat) (tagNames : List String) (db : Db) : Db :=
  let cleared := { db with mediaTags := db.mediaTags.filter (fun p => !(p.1 == mediaId)) }
  tagNames.foldl (fun acc n => addTag mediaId n acc) cleared

/-- Does record `r` carry an association to a tag named `name`?  (The
membership view of `getMediaTags`: a `media_tags` row for `r` joined to a
`tags` row called `name`.) -/
def hasAssocName (db : Db) (r : Nat) (name : String) : Bool :=
  db.mediaTags.any (fun mt =>
    mt.1 == r && db.tags.any (fun tg => tg.1 == mt.2 && tg.2 == name))

/-! ## Bulk endpoint (legacy `POST /api/media/bulk`) -/

/-- `'^\d{4}-\d{2}-\d{2}$'.test s` - the date-format regex of the legacy
handlers. -/
def dateOkB (s : String) : Bool :=
  match s.data with
  | [y1, y2, y3, y4, sep1, m1, m2, sep2, d1, d2] =>
    isDigitB y1 && isDigitB y2 && isDigitB y3 && isDigitB y4 &&
    sep1 == '-' && isDigitB m1 && isDigitB m2 && sep2 == '-' &&
    isDigitB d1 && isDigitB d2
  | _ => false

/-- The fixed media-type enumeration (declaration order of the legacy
bulk handler, line 563). -/
def validTypes : List String :=
  ["book", "series", "comic", "movie", "anime", "cartoon"]

/-- Per-item validation of the legacy bulk handler (lines 583-593),
returning the thrown message: required-field check, media-type check,
date-format check (the end-date is only checked when truthy). -/
def validateItem (it : RawItem) : Option String :=
  if !(truthy it.title && truthy it.media_type && truthy it.start_date) then
    some "Missing required fields: title, media_type, or start_date"
  else if !(validTypes.contains (it.media_type.getD "")) then
    some ("Invalid media type: " ++ it.media_type.getD "")
  else if !(dateOkB (it.start_date.getD "")) ||
          (truthy it.end_date && !(dateOkB (it.end_date.getD ""))) then
    some "Invalid date format. Use YYYY-MM-DD"
  else
    none

/-- The `media` row written by the bulk `INSERT` for a validated item. -/
def mkRow (id : Nat) (it : RawItem) : MediaRow :=
  { id := id
    title := it.title.getD ""
    author := it.author
    media_type := it.media_type.getD ""
    start_date := it.start_date.getD ""
    end_date := it.end_date
    volume_episode := it.volume_episode
    notes := it.notes
    discontinued := it.discontinued }

/-- `title || 'Unknown'` of the failed-entry push (line 616). -/
def titleOrUnknown (it : RawItem) : String :=
  if truthy it.title then it.title.getD "" else "Unknown"

/-- Outcome of one iteration of the bulk loop body. -/
inductive StepRes where
  | succ (e : SuccessEntry)
  | fail (e : FailEntry)
deriving Repr, DecidableEq

/-- The body of the bulk loop for item `i` (lines 581-619): validate,
insert the media row, parse the tags (which can throw after the insert),
attach the tags; any thrown error is caught and recorded as a failed
entry - note that a row inserted before a tags error stays in the
transaction. -/
def stepItem (i : Nat) (it : RawItem) (db : Db) : StepRes × Db :=
  match validateItem it with
  | some msg => (.fail ⟨i, titleOrUnknown it, msg⟩, db)
  | none =>
    let id := db.nextMediaId
    let db1 := { db with media := db.media ++ [mkRow id it],
                         nextMediaId := id + 1 }
    match parseTagsInput it.tags with
    | .error msg => (.fail ⟨i, titleOrUnknown it, msg⟩, db1)
    | .ok names => (.succ ⟨i, id, it.title.getD ""⟩, setMediaTags id names db1)

/-- The bulk loop (lines 567-620).  Each list element is the JSON value
of `items[i]`; `none` is a JSON `null`, whose destructuring
(`const {title, ...} = item`, line 569 - before the per-item `try`)
throws a `TypeError` that escapes to the transaction-level catch. -/
def bulkRun (i : Nat) (items : List (Option RawItem)) (db : Db) :
    Except Unit (List SuccessEntry × List FailEntry × Db) :=
  match items with
  | [] => .ok ([], [], db)
  | none :: _ => .error ()
  | some it :: rest =>
    match stepItem i it db with
    | (.succ e, db1) =>
      (bulkRun (i + 1) rest db1).map (fun r => (e :: r.1, r.2.1, r.2.2))
    | (.fail e, db1) =>
      (bulkRun (i + 1) rest db1).map (fun r => (r.1, e :: r.2.1, r.2.2))

/-- The observable outcome of the bulk endpoint: HTTP status, the
`results` object, and the database state after the request. -/
structure BulkOut where
  status : Nat
  success : List SuccessEntry
  failed : List FailEntry
  total : Nat
  db : Db
deriving Repr, DecidableEq

/-- Legacy `POST /api/media/bulk` (lines 540-641).  `none` for `items`
means the field is not an array.  Shape checks happen before
`BEGIN TRANSACTION`; a loop-level throw triggers `ROLLBACK` (the
pre-loop state is restored) and a 500; otherwise the transaction is
committed once and the status is 201 or 207 by the failed count. -/
def bulkEndpoint (itemsField : Option (List (Option RawItem))) (db : Db) :
    BulkOut :=
  match itemsField with
  | none => ⟨400, [], [], 0, db⟩
  | some items =>
    if items.length = 0 then ⟨400, [], [], 0, db⟩
    else if 200 < items.length then ⟨400, [], [], 0, db⟩
    else
      match bulkRun 0 items db with
      | .error _ => ⟨500, [], [], 0, db⟩
      | .ok (s, f, db') =>
        ⟨if f.length = 0 then 201 else 207, s, f, items.length, db'⟩

/-! ## Year query (legacy `GET /api/media`) -/

/-- SQLite accepts `YYYY-MM-DD` with month 01-12 and day 01-31; on any
other string the date functions return NULL. -/
def sqlDateValid (s : String) : Bool :=
  match s.data with
  | [y1, y2, y3, y4, sep1, m1, m2, sep2, d1, d2] =>
    isDigitB y1 && isDigitB y2 && isDigitB y3 && isDigitB y4 &&
    sep1 == '-' && isDigitB m1 && isDigitB m2 && sep2 == '-' &&
    isDigitB d1 && isDigitB d2 &&
    1 ≤ 10 * digitVal m1 + digitVal m2 && 10 * digitVal m1 + digitVal m2 ≤ 12 &&
    1 ≤ 10 * digitVal d1 + digitVal d2 && 10 * digitVal d1 + digitVal d2 ≤ 31
  | _ => false

/-- `strftime('%Y', s)`: the four year characters, or NULL when `s` is
not a valid date string. -/
def sqlYearStr (s : String) : Option String :=
  if sqlDateValid s then some ⟨s.data.take 4⟩ else none

/-- SQL `a = b` where `a` may be NULL (NULL compares as no-match). -/
def nEq (a : Option String) (b : String) : Bool :=
  match a with
  | some v => v == b
  | none => false

/-- SQL `a < b` on possibly-NULL text (BINARY collation). -/
def nLt (a b : Option String) : Bool :=
  match a, b with
  | some x, some y => lexLt x.data y.data
  | _, _ => false

/-- The `WHERE` clause of the year query (server-new.js lines 470-474):
four disjuncts over `strftime('%Y', start_date)` / `strftime('%Y',
end_date)` against the (string) year parameter. -/
def matchesYear (y : String) (r : MediaRow) : Bool :=
  nEq (sqlYearStr r.start_date) y ||
  (match r.end_date with
   | some e => nEq (sqlYearStr e) y
   | none => false) ||
  (match r.end_date with
   | some _ =>
     nLt (sqlYearStr r.start_date) (some y) &&
     nLt (some y) (sqlYearStr (r.end_date.getD ""))
   | none => false) ||
  (match r.end_date with
   | none => nEq (sqlYearStr r.start_date) y
   | some _ => false)

/-- `ORDER BY start_date` (ascending, BINARY collation). -/
def rowLe (a b : MediaRow) : Bool :=
  !(lexLt b.start_date.data a.start_date.data)

/-- Legacy `GET /api/media?year=Y` (lines 463-492): filter by the year
predicate, order by `start_date`. -/
def queryByYear (y : String) (db : Db) : List MediaRow :=
  (db.media.filter (matchesYear y)).mergeSort rowLe

/-! ## Delete endpoint (legacy `DELETE /api/media/:id`) -/

/-- Longest leading run of decimal digits, `none` when there is none. -/
def leadDigitsVal (l : List Char) : Option Int :=
  match l.takeWhile isDigitB with
  | [] => none
  | ds => some (digitsVal ds)

/-- ECMAScript `parseInt(s)` (radix 10; the route parameter never starts
with `0x`, but the hex autodetection is included for fidelity): skip
leading whitespace, read an optional sign, then the longest digit run;
NaN (`none`) when no digit follows. -/
def jsParseInt (s : String) : Option Int :=
  let l := s.data.dropWhile isWs
  match l with
  | '-' :: rest => (jsParseIntUnsigned rest).map (fun n => -n)
  | '+' :: rest => jsParseIntUnsigned rest
  | _ => jsParseIntUnsigned l
where
  /-- Unsigned part of `parseInt`: `0x`/`0X` selects hexadecimal. -/
  jsParseIntUnsigned (l : List Char) : Option Int :=
    match l with
    | '0' :: 'x' :: rest => hexVal rest
    | '0' :: 'X' :: rest => hexVal rest
    | _ => leadDigitsVal l
  /-- Value of the longest leading hex-digit run. -/
  hexVal (l : List Char) : Option Int :=
    match l.takeWhile (fun c => isDigitB c ||
        (97 ≤ c.toNat && c.toNat ≤ 102) || (65 ≤ c.toNat && c.toNat ≤ 70)) with
    | [] => none
    | ds => some (ds.foldl (fun acc c =>
        16 * acc + (if isDigitB c then (c.toNat - 48 : Int)
                    else if 97 ≤ c.toNat then (c.toNat - 87 : Int)
                    else (c.toNat - 55 : Int))) 0)

/-- Legacy `DELETE /api/media/:id` (lines 693-712): 400 when `parseInt`
yields NaN, otherwise `DELETE FROM media WHERE id = ?`; 404 when no row
changed, 200 otherwise.  (The connection never enables
`PRAGMA foreign_keys`, so SQLite's default OFF applies and the
`ON DELETE CASCADE` of `media_tags` does not fire: `media_tags` rows are
left in place.) -/
def deleteEndpoint (idStr : String) (db : Db) : Nat × Db :=
  match jsParseInt idStr with
  | none => (400, db)
  | some v =>
    let remaining := db.media.filter (fun r => !((r.id : Int) == v))
    if remaining.length = db.media.length then (404, db)
    else (200, { db with media := remaining })

/-! ## Derived specification helpers and sample inputs -/

/-- Numeric value of the year prefix of a `YYYY-MM-DD` string (the
specification side of the year query: "the date falls in year Y"). -/
def yearNum (s : String) : Nat := digitsVal (s.data.take 4)

/-- The media rows written by a bulk batch: one row per item that passes
field validation, with consecutive `AUTOINCREMENT` ids starting at `id`.
(Only meaningful for batches without JSON `null` items - a `null` aborts
the batch and rolls the transaction back.) -/
def validRowsFrom (id : Nat) : List (Option RawItem) → List MediaRow
  | [] => []
  | none :: _ => []
  | some it :: rest =>
    match validateItem it with
    | some _ => validRowsFrom id rest
    | none => mkRow id it :: validRowsFrom (id + 1) rest

/-- A fully valid bulk item. -/
def sampleItem : RawItem :=
  { title := some "Dune", author := "Frank Herbert", media_type := some "book",
    start_date := some "2024-01-05", end_date := some "2024-02-10",
    volume_episode := "", tags := .strInput "Sci-Fi, classic", notes := "",
    discontinued := false }

/-- A valid item with no tags (cheap to process in bulk). -/
def plainItem : RawItem :=
  { title := some "Plain", author := "", media_type := some "movie",
    start_date := some "2023-06-01", end_date := none,
    volume_episode := "", tags := .strInput "", notes := "",
    discontinued := false }

/-- An item with an invalid media type (fails field validation). -/
def badTypeItem : RawItem :=
  { sampleItem with media_type := some "podcast" }

/-- An item that passes field validation but whose `tags` payload is an
array containing a non-string: `tag.trim()` throws after the media row
insert. -/
def badTagsItem : RawItem :=
  { sampleItem with tags := .arrInput [JTag.nonString] }

/-- A one-record database whose record 1 carries one tag association
(used to exhibit the delete behaviour). -/
def oneRowDb : Db :=
  { media := [mkRow 1 plainItem], tags := [(1, "x")],
    mediaTags := [(1, 1)], nextMediaId := 2, nextTagId := 2 }

/-! ## Lemmas about the character/string helpers -/

theorem char_eq_of_toNat_eq {a b : Char} (h : a.toNat = b.toNat) : a = b :=
  Char.eq_of_val_eq (UInt32.ext h)

theorem toNat_ofNat_valid {m : Nat} (h : m < 55296) : (Char.ofNat m).toNat = m := by
  have hv : m.isValidChar := Or.inl h
  unfold Char.ofNat
  simp [hv, Char.ofNatAux, Char.toNat]
  rfl

theorem lowerChar_toNat (c : Char) :
    (lowerChar c).toNat =
      if 65 ≤ c.toNat ∧ c.toNat ≤ 90 then c.toNat + 32 else c.toNat := by
  unfold lowerChar
  by_cases h : 65 ≤ c.toNat ∧ c.toNat ≤ 90
  · rw [if_pos h, if_pos h]
    exact toNat_ofNat_valid (by omega)
  · rw [if_neg h, if_neg h]

theorem lowerChar_idem (c : Char) : lowerChar (lowerChar c) = lowerChar c := by
  apply char_eq_of_toNat_eq
  have h1 := lowerChar_toNat c
  have h2 := lowerChar_toNat (lowerChar c)
  by_cases h0 : 65 ≤ c.toNat ∧ c.toNat ≤ 90
  · rw [if_pos h0] at h1
    rw [h1, if_neg (by omega)] at h2
    rw [h2, h1]
  · rw [if_neg h0] at h1
    rw [h1, if_neg h0] at h2
    rw [h2, h1]

theorem isWs_iff (c : Char) :
    isWs c = true ↔
      (c.toNat = 32 ∨ c.toNat = 9 ∨ c.toNat = 10 ∨ c.toNat = 11 ∨
       c.toNat = 13 ∨ c.toNat = 12) := by
  simp only [isWs, Bool.or_eq_true, decide_eq_true_eq]
  tauto

theorem isWs_lowerChar (c : Char) : isWs (lowerChar c) = isWs c := by
  have ht := lowerChar_toNat c
  cases hl : isWs (lowerChar c) <;> cases hr : isWs c <;> try rfl
  · rw [isWs_iff] at hr
    have hl2 : ¬(isWs (lowerChar c) = true) := by rw [hl]; exact Bool.false_ne_true
    rw [isWs_iff, ht] at hl2
    exfalso
    by_cases h0 : 65 ≤ c.toNat ∧ c.toNat ≤ 90
    · omega
    · rw [if_neg h0] at hl2
      exact hl2 hr
  · rw [isWs_iff, ht] at hl
    have hr2 : ¬(isWs c = true) := by rw [hr]; exact Bool.false_ne_true
    rw [isWs_iff] at hr2
    exfalso
    by_cases h0 : 65 ≤ c.toNat ∧ c.toNat ≤ 90
    · rw [if_pos h0] at hl
      omega
    · rw [if_neg h0] at hl
      exact hr2 hl

theorem jsToLower_idem (s : String) : jsToLower (jsToLower s) = jsToLower s := by
  unfold jsToLower
  simp [List.map_map, Function.comp_def, lowerChar_idem]

/-- Right-trimming a left-trimmed list yields a fully trimmed (stable)
list. -/
theorem dropTrail_of_leftTrimmed (t : List Char) (hT : t.dropWhile isWs = t) :
    (dropTrailWs t).dropWhile isWs = dropTrailWs t ∧
    dropTrailWs (dropTrailWs t) = dropTrailWs t := by
  have hrev : (dropTrailWs t).reverse = t.reverse.dropWhile isWs := by
    unfold dropTrailWs
    rw [List.reverse_reverse]
  have hpref : dropTrailWs t <+: t := by
    apply List.reverse_suffix.mp
    rw [hrev]
    exact List.dropWhile_suffix isWs
  refine ⟨?_, ?_⟩
  · cases hu : dropTrailWs t with
    | nil => rfl
    | cons c rest =>
      have hc : isWs c = false := by
        cases hcb : isWs c
        · rfl
        · exfalso
          obtain ⟨w, hw⟩ := hpref
          rw [hu] at hw
          have hT2 := hT
          rw [← hw] at hT2
          simp only [List.cons_append] at hT2
          rw [List.dropWhile_cons, hcb, if_pos rfl] at hT2
          have hlen := congrArg List.length hT2
          have hle := (List.dropWhile_suffix (l := rest ++ w) isWs).sublist.length_le
          simp only [List.length_cons] at hlen
          omega
      rw [List.dropWhile_cons, hc]
      simp
  · have h2 : (dropTrailWs t).reverse.dropWhile isWs = (dropTrailWs t).reverse := by
      rw [hrev]
      exact List.dropWhile_idempotent isWs _
    show ((dropTrailWs t).reverse.dropWhile isWs).reverse = dropTrailWs t
    rw [h2, List.reverse_reverse]

theorem jsTrim_idem (s : String) : jsTrim (jsTrim s) = jsTrim s := by
  have h := dropTrail_of_leftTrimmed (s.data.dropWhile isWs)
    (List.dropWhile_idempotent isWs _)
  show (⟨dropTrailWs ((jsTrim s).data.dropWhile isWs)⟩ : String) = jsTrim s
  have hdata : (jsTrim s).data = dropTrailWs (s.data.dropWhile isWs) := rfl
  rw [hdata, h.1, h.2]
  rfl

theorem dropWhile_map_lower (l : List Char) :
    (l.map lowerChar).dropWhile isWs = (l.dropWhile isWs).map lowerChar := by
  rw [List.dropWhile_map]
  simp only [Function.comp_def, isWs_lowerChar]

theorem dropTrailWs_map_lower (l : List Char) :
    dropTrailWs (l.map lowerChar) = (dropTrailWs l).map lowerChar := by
  unfold dropTrailWs
  rw [← List.map_reverse, dropWhile_map_lower, ← List.map_reverse]

theorem jsTrim_jsToLower (s : String) (h : jsTrim s = s) :
    jsTrim (jsToLower s) = jsToLower s := by
  have hdata : dropTrailWs (s.data.dropWhile isWs) = s.data := congrArg String.data h
  show (⟨dropTrailWs ((s.data.map lowerChar).dropWhile isWs)⟩ : String)
      = ⟨s.data.map lowerChar⟩
  rw [dropWhile_map_lower, dropTrailWs_map_lower, hdata]

theorem normalizeTag_idem (s : String) :
    normalizeTag (normalizeTag s) = normalizeTag s := by
  unfold normalizeTag
  rw [jsTrim_jsToLower (jsTrim s) (jsTrim_idem s), jsToLower_idem]

/-! ## Lemmas about `parseTagsInput` -/

theorem str_length_pos_iff (t : String) : 0 < t.length ↔ t ≠ "" := by
  cases t with
  | mk data =>
    cases data with
    | nil => simp [String.length]
    | cons c cs =>
      simp only [String.length]
      constructor
      · intro _ hcon
        have := congrArg String.data hcon
        simp at this
      · intro _
        simp

/-- Elements of a successful `mapM` over the tag mapper are images of the
mapper on array elements. -/
theorem mapM_tag_ok (f : JTag → Except String String) :
    ∀ (xs : List JTag) (ys : List String), xs.mapM f = Except.ok ys →
      ∀ y ∈ ys, ∃ x ∈ xs, f x = Except.ok y := by
  intro xs
  induction xs with
  | nil =>
    intro ys h y hy
    have h2 : (Except.ok [] : Except String (List String)) = Except.ok ys := h
    rw [← Except.ok.inj h2] at hy
    exact absurd hy (List.not_mem_nil y)
  | cons x xs ih =>
    intro ys h y hy
    rw [List.mapM_cons] at h
    cases hfx : f x with
    | error e => rw [hfx] at h; exact absurd h (by simp [Bind.bind, Except.bind])
    | ok v =>
      rw [hfx] at h
      cases hrest : xs.mapM f with
      | error e =>
        rw [hrest] at h
        exact absurd h (by simp [Bind.bind, Except.bind])
      | ok vs =>
        rw [hrest] at h
        have hys : ys = v :: vs := by
          have : Except.ok (ε := String) (v :: vs) = Except.ok ys := h
          exact (Except.ok.inj this).symm
        rw [hys] at hy
        cases hy with
        | head => exact ⟨x, List.mem_cons_self x xs, hfx⟩
        | tail _ hmem =>
          obtain ⟨x0, hx0, hfx0⟩ := ih vs hrest y hmem
          exact ⟨x0, List.mem_cons_of_mem x hx0, hfx0⟩

/-- Every name returned by `parseTagsInput` is the normalization of some
raw token and is non-empty. -/
theorem parse_mem {i : TagsInput} {l : List String} (h : parseTagsInput i = .ok l)
    {t : String} (ht : t ∈ l) : (∃ s0, t = normalizeTag s0) ∧ 0 < t.length := by
  cases i with
  | strInput v =>
    simp only [parseTagsInput] at h
    have hl := Except.ok.inj h
    rw [← hl] at ht
    have hm := List.mem_filter.mp ht
    obtain ⟨s0, _, hs0⟩ := List.mem_map.mp hm.1
    refine ⟨⟨s0, hs0.symm⟩, ?_⟩
    have := hm.2
    simpa using this
  | arrInput xs =>
    simp only [parseTagsInput, bind, pure] at h
    cases hmm : xs.mapM (fun t =>
        match t with
        | .s v => Except.ok (normalizeTag v)
        | .nonString => Except.error "tag.trim is not a function") with
    | error e =>
      rw [hmm] at h
      exact absurd h (by simp [Except.bind])
    | ok mapped =>
      rw [hmm] at h
      have hl : mapped.filter (fun t => t.length > 0) = l := by
        have : Except.ok (ε := String) (mapped.filter (fun t => t.length > 0)) = Except.ok l := h
        exact Except.ok.inj this
      rw [← hl] at ht
      have hm := List.mem_filter.mp ht
      obtain ⟨x, hx, hfx⟩ := mapM_tag_ok _ xs mapped hmm t hm.1
      cases x with
      | s v =>
        have : t = normalizeTag v := (Except.ok.inj hfx).symm
        refine ⟨⟨v, this⟩, ?_⟩
        simpa using hm.2
      | nonString => exact absurd hfx (by simp)
  | otherInput =>
    simp only [parseTagsInput] at h
    have hl := Except.ok.inj h
    rw [← hl] at ht
    exact absurd ht (List.not_mem_nil t)

/-- Re-parsing a list of already-normalized, non-empty names returns it
unchanged. -/
theorem parse_arr_normalized (l : List String)
    (hl : ∀ t ∈ l, normalizeTag t = t ∧ 0 < t.length) :
    parseTagsInput (.arrInput (l.map JTag.s)) = .ok l := by
  simp only [parseTagsInput, bind, pure]
  have hmm : (l.map JTag.s).mapM (fun t =>
      match t with
      | .s v => Except.ok (normalizeTag v)
      | .nonString => Except.error "tag.trim is not a function") = Except.ok l := by
    induction l with
    | nil => rfl
    | cons x xs ih =>
      have hx := hl x (List.mem_cons_self x xs)
      have hxs : ∀ t ∈ xs, normalizeTag t = t ∧ 0 < t.length := by
        intro t htm
        exact hl t (List.mem_cons_of_mem x htm)
      simp only [List.map_cons, List.mapM_cons]
      rw [ih hxs]
      simp only [hx.1]
      rfl
  rw [hmm]
  show Except.ok (l.filter (fun t => t.length > 0)) = Except.ok l
  congr 1
  apply List.filter_eq_self.mpr
  intro a ha
  have := (hl a ha).2
  simpa using this

/-! ## Invariants of the tag store -/

/-- Well-formedness of the tag tables: distinct tag ids, ids below the
`AUTOINCREMENT` counter (both in `tags` and as foreign keys in
`media_tags`), and no duplicate association pair (the `PRIMARY KEY
(media_id, tag_id)`). -/
def TagInv (db : Db) : Prop :=
  (db.tags.map Prod.fst).Nodup ∧
  (∀ p ∈ db.tags, p.1 < db.nextTagId) ∧
  (∀ p ∈ db.mediaTags, p.2 < db.nextTagId) ∧
  db.mediaTags.Nodup

/-- Association media-ids stay below the media `AUTOINCREMENT` counter. -/
def MediaInv (db : Db) : Prop :=
  ∀ p ∈ db.mediaTags, p.1 < db.nextMediaId

theorem bool_eq_of_iff {a b : Bool} (h : a = true ↔ b = true) : a = b := by
  cases a <;> cases b <;> simp_all

/-! ## Lemmas about `insertAssoc`, `addTag`, `setMediaTags` -/

theorem insertAssoc_tags (m t : Nat) (db : Db) :
    (insertAssoc m t db).tags = db.tags := by
  unfold insertAssoc
  split <;> rfl

theorem insertAssoc_nextTagId (m t : Nat) (db : Db) :
    (insertAssoc m t db).nextTagId = db.nextTagId := by
  unfold insertAssoc
  split <;> rfl

theorem insertAssoc_media (m t : Nat) (db : Db) :
    (insertAssoc m t db).media = db.media := by
  unfold insertAssoc
  split <;> rfl

theorem insertAssoc_nextMediaId (m t : Nat) (db : Db) :
    (insertAssoc m t db).nextMediaId = db.nextMediaId := by
  unfold insertAssoc
  split <;> rfl

theorem insertAssoc_mem (m t : Nat) (db : Db) (p : Nat × Nat) :
    p ∈ (insertAssoc m t db).mediaTags ↔ p ∈ db.mediaTags ∨ p = (m, t) := by
  unfold insertAssoc
  split
  next h =>
    constructor
    · exact fun hp => Or.inl hp
    · intro hp
      cases hp with
      | inl hp => exact hp
      | inr hp => rw [hp]; exact h
  next h =>
    simp

theorem insertAssoc_nodup (m t : Nat) (db : Db) (h : db.mediaTags.Nodup) :
    (insertAssoc m t db).mediaTags.Nodup := by
  unfold insertAssoc
  split
  next hmem => exact h
  next hmem =>
    simp only [List.nodup_append]
    exact ⟨h, List.nodup_singleton _, by
      intro a ha hb
      rw [List.mem_singleton] at hb
      rw [hb] at ha
      exact hmem ha⟩

theorem addTag_tags_sub (r : Nat) (n : String) (db : Db) (q : Nat × String)
    (hq : q ∈ db.tags) : q ∈ (addTag r n db).tags := by
  simp only [addTag]
  split
  · exact hq
  · split
    · rw [insertAssoc_tags]; exact hq
    · rw [insertAssoc_tags]
      simp only []
      exact List.mem_append_left _ hq

theorem addTag_media (r : Nat) (n : String) (db : Db) :
    (addTag r n db).media = db.media := by
  simp only [addTag]
  split
  · rfl
  · split <;> rw [insertAssoc_media]

theorem addTag_nextMediaId (r : Nat) (n : String) (db : Db) :
    (addTag r n db).nextMediaId = db.nextMediaId := by
  simp only [addTag]
  split
  · rfl
  · split <;> rw [insertAssoc_nextMediaId]

theorem hasAssocName_iff (db : Db) (r : Nat) (name : String) :
    hasAssocName db r name = true ↔
      ∃ tid, (r, tid) ∈ db.mediaTags ∧ (tid, name) ∈ db.tags := by
  unfold hasAssocName
  simp only [List.any_eq_true, Bool.and_eq_true, beq_iff_eq]
  constructor
  · rintro ⟨mt, hmt, hr, tg, htg, hid, hnm⟩
    refine ⟨mt.2, ?_, ?_⟩
    · have : mt = (r, mt.2) := by
        rw [← hr]
      rw [← this]
      exact hmt
    · have : tg = (mt.2, name) := by
        rw [← hid, ← hnm]
      rw [← this]
      exact htg
  · rintro ⟨tid, hmt, htg⟩
    exact ⟨(r, tid), hmt, rfl, (tid, name), htg, rfl, rfl⟩

/-- The id column of `tags` is a key: two rows with the same id are the
same row. -/
theorem tags_key {db : Db} (hids : (db.tags.map Prod.fst).Nodup)
    {q1 q2 : Nat × String} (h1 : q1 ∈ db.tags) (h2 : q2 ∈ db.tags)
    (hfst : q1.1 = q2.1) : q1 = q2 :=
  List.inj_on_of_nodup_map hids h1 h2 hfst

/-- Effect of one `addTag` iteration on the association predicate (for an
arbitrary observed record `r`). -/
theorem addTag_assoc_iff (db : Db) (hinv : TagInv db) (r' : Nat) (n : String)
    (r : Nat) (name : String) :
    hasAssocName (addTag r' n db) r name = true ↔
      (hasAssocName db r name = true ∨
        (r = r' ∧ normalizeTag n = name ∧ normalizeTag n ≠ "")) := by
  obtain ⟨hids, htagLt, hmtLt, hnd⟩ := hinv
  simp only [addTag]
  split
  next hlen =>
    have hempty : normalizeTag n = "" := by
      by_contra hne
      have := (str_length_pos_iff (normalizeTag n)).mpr hne
      omega
    constructor
    · exact Or.inl
    · rintro (h | ⟨_, _, hbad⟩)
      · exact h
      · exact absurd hempty hbad
  next hlen =>
    have hne : normalizeTag n ≠ "" := by
      intro h0
      apply hlen
      rw [h0]
      rfl
    split
    next p hfind =>
      have hpmem : p ∈ db.tags := List.mem_of_find?_eq_some hfind
      have hpt : p.2 = normalizeTag n := by
        have := List.find?_some hfind
        exact beq_iff_eq.mp this
      rw [hasAssocName_iff, hasAssocName_iff]
      constructor
      · rintro ⟨tid, hmt, htg⟩
        rw [insertAssoc_mem] at hmt
        rw [insertAssoc_tags] at htg
        cases hmt with
        | inl hmt => exact Or.inl ⟨tid, hmt, htg⟩
        | inr heq =>
          rw [Prod.mk.injEq] at heq
          obtain ⟨hr, htid⟩ := heq
          right
          refine ⟨hr, ?_, hne⟩
          rw [htid] at htg
          have hsame : ((p.1, name) : Nat × String) = p :=
            tags_key hids htg hpmem rfl
          have : name = p.2 := (congrArg Prod.snd hsame)
          rw [this, hpt]
      · rintro (⟨tid, hmt, htg⟩ | ⟨hr, hnm, _⟩)
        · exact ⟨tid, (insertAssoc_mem _ _ _ _).mpr (Or.inl hmt),
            by rw [insertAssoc_tags]; exact htg⟩
        · refine ⟨p.1, (insertAssoc_mem _ _ _ _).mpr (Or.inr (by rw [hr])), ?_⟩
          rw [insertAssoc_tags]
          have : ((p.1, name) : Nat × String) = p := by
            have h2 : name = p.2 := by rw [← hnm, hpt]
            rw [h2]
          rw [this]
          exact hpmem
    next hfind =>
      have hnotin := List.find?_eq_none.mp hfind
      rw [hasAssocName_iff, hasAssocName_iff]
      constructor
      · rintro ⟨tid, hmt, htg⟩
        rw [insertAssoc_mem] at hmt
        rw [insertAssoc_tags] at htg
        simp only [List.mem_append, List.mem_singleton] at htg
        cases hmt with
        | inl hmt =>
          have htid : tid < db.nextTagId := hmtLt (r, tid) hmt
          cases htg with
          | inl htg => exact Or.inl ⟨tid, hmt, htg⟩
          | inr htg =>
            rw [Prod.mk.injEq] at htg
            omega
        | inr heq =>
          rw [Prod.mk.injEq] at heq
          obtain ⟨hr, htid⟩ := heq
          cases htg with
          | inl htg =>
            have := htagLt (tid, name) htg
            omega
          | inr htg =>
            rw [Prod.mk.injEq] at htg
            exact Or.inr ⟨hr, htg.2.symm, hne⟩
      · rintro (⟨tid, hmt, htg⟩ | ⟨hr, hnm, _⟩)
        · refine ⟨tid, (insertAssoc_mem _ _ _ _).mpr (Or.inl hmt), ?_⟩
          rw [insertAssoc_tags]
          exact List.mem_append_left _ htg
        · refine ⟨db.nextTagId,
            (insertAssoc_mem _ _ _ _).mpr (Or.inr (by rw [hr])), ?_⟩
          rw [insertAssoc_tags]
          apply List.mem_append_right
          rw [← hnm]
          exact List.mem_singleton.mpr rfl

theorem addTag_inv (db : Db) (hinv : TagInv db) (r' : Nat) (n : String) :
    TagInv (addTag r' n db) := by
  obtain ⟨hids, htagLt, hmtLt, hnd⟩ := hinv
  simp only [addTag]
  split
  next => exact ⟨hids, htagLt, hmtLt, hnd⟩
  next hlen =>
    split
    next p hfind =>
      have hpmem : p ∈ db.tags := List.mem_of_find?_eq_some hfind
      refine ⟨?_, ?_, ?_, insertAssoc_nodup _ _ _ hnd⟩
      · rw [insertAssoc_tags]
        exact hids
      · rw [insertAssoc_tags, insertAssoc_nextTagId]
        exact htagLt
      · rw [insertAssoc_nextTagId]
        intro q hq
        rw [insertAssoc_mem] at hq
        cases hq with
        | inl hq => exact hmtLt q hq
        | inr hq =>
          rw [hq]
          exact htagLt p hpmem
    next hfind =>
      refine ⟨?_, ?_, ?_, insertAssoc_nodup _ _ _ hnd⟩
      · rw [insertAssoc_tags]
        simp only [List.map_append, List.map_cons, List.map_nil, List.nodup_append]
        refine ⟨hids, List.nodup_singleton _, ?_⟩
        intro a ha hb
        rw [List.mem_singleton] at hb
        obtain ⟨q, hq, hqa⟩ := List.mem_map.mp ha
        have := htagLt q hq
        omega
      · rw [insertAssoc_tags, insertAssoc_nextTagId]
        intro q hq
        simp only [List.mem_append, List.mem_singleton] at hq
        cases hq with
        | inl hq =>
          have := htagLt q hq
          simp only []
          omega
        | inr hq =>
          rw [hq]
          simp only []
          omega
      · rw [insertAssoc_nextTagId]
        intro q hq
        rw [insertAssoc_mem] at hq
        simp only [] at hq ⊢
        cases hq with
        | inl hq =>
          have := hmtLt q hq
          omega
        | inr hq =>
          rw [hq]
          omega

theorem addTag_mem_sub (r' : Nat) (n : String) (db : Db) (p : Nat × Nat)
    (hp : p ∈ (addTag r' n db).mediaTags) : p ∈ db.mediaTags ∨ p.1 = r' := by
  simp only [addTag] at hp
  split at hp
  next => exact Or.inl hp
  next =>
    split at hp
    next q hfind =>
      rw [insertAssoc_mem] at hp
      cases hp with
      | inl hp => exact Or.inl hp
      | inr hp => exact Or.inr (congrArg Prod.fst hp)
    next hfind =>
      rw [insertAssoc_mem] at hp
      cases hp with
      | inl hp => exact Or.inl hp
      | inr hp => exact Or.inr (congrArg Prod.fst hp)

theorem foldl_addTag_inv (r' : Nat) (T : List String) :
    ∀ db : Db, TagInv db → TagInv (T.foldl (fun acc n => addTag r' n acc) db) := by
  induction T with
  | nil => exact fun db h => h
  | cons x xs ih =>
    intro db h
    rw [List.foldl_cons]
    exact ih _ (addTag_inv db h r' x)

theorem foldl_addTag_media (r' : Nat) (T : List String) :
    ∀ db : Db, (T.foldl (fun acc n => addTag r' n acc) db).media = db.media := by
  induction T with
  | nil => exact fun db => rfl
  | cons x xs ih =>
    intro db
    rw [List.foldl_cons, ih, addTag_media]

theorem foldl_addTag_nextMediaId (r' : Nat) (T : List String) :
    ∀ db : Db,
      (T.foldl (fun acc n => addTag r' n acc) db).nextMediaId = db.nextMediaId := by
  induction T with
  | nil => exact fun db => rfl
  | cons x xs ih =>
    intro db
    rw [List.foldl_cons, ih, addTag_nextMediaId]

theorem foldl_addTag_mem_sub (r' : Nat) (T : List String) :
    ∀ (db : Db) (p : Nat × Nat),
      p ∈ (T.foldl (fun acc n => addTag r' n acc) db).mediaTags →
        p ∈ db.mediaTags ∨ p.1 = r' := by
  induction T with
  | nil => exact fun db p hp => Or.inl hp
  | cons x xs ih =>
    intro db p hp
    rw [List.foldl_cons] at hp
    cases ih _ p hp with
    | inl h2 => exact addTag_mem_sub r' x db p h2
    | inr h2 => exact Or.inr h2

theorem foldl_addTag_assoc (r' : Nat) (T : List String) :
    ∀ (db : Db), TagInv db → ∀ (r : Nat) (name : String),
      (hasAssocName (T.foldl (fun acc n => addTag r' n acc) db) r name = true ↔
        (hasAssocName db r name = true ∨
          ∃ s ∈ T, r = r' ∧ normalizeTag s = name ∧ normalizeTag s ≠ "")) := by
  induction T with
  | nil =>
    intro db h r name
    simp
  | cons x xs ih =>
    intro db h r name
    rw [List.foldl_cons]
    rw [ih _ (addTag_inv db h r' x) r name]
    rw [addTag_assoc_iff db h r' x r name]
    constructor
    · rintro ((h0 | hx) | ⟨s, hs, hp⟩)
      · exact Or.inl h0
      · exact Or.inr ⟨x, List.mem_cons_self x xs, hx⟩
      · exact Or.inr ⟨s, List.mem_cons_of_mem x hs, hp⟩
    · rintro (h0 | ⟨s, hs, hp⟩)
      · exact Or.inl (Or.inl h0)
      · cases List.mem_cons.mp hs with
        | inl heq => exact Or.inl (Or.inr (heq ▸ hp))
        | inr hmem => exact Or.inr ⟨s, hmem, hp⟩

/-- The deletion step of `setMediaTags` preserves the invariant. -/
theorem clear_inv (db : Db) (r : Nat) (h : TagInv db) :
    TagInv { db with mediaTags := db.mediaTags.filter (fun p => !(p.1 == r)) } := by
  obtain ⟨hids, htagLt, hmtLt, hnd⟩ := h
  refine ⟨hids, htagLt, ?_, List.Nodup.filter _ hnd⟩
  intro p hp
  exact hmtLt p (List.mem_of_mem_filter hp)

theorem clear_mediaInv (db : Db) (r : Nat) (h : MediaInv db) :
    MediaInv { db with mediaTags := db.mediaTags.filter (fun p => !(p.1 == r)) } := by
  intro p hp
  exact h p (List.mem_of_mem_filter hp)

theorem hasAssocName_clear_self (db : Db) (r : Nat) (name : String) :
    hasAssocName
      { db with mediaTags := db.mediaTags.filter (fun p => !(p.1 == r)) }
      r name = false := by
  rw [Bool.eq_false_iff]
  intro htrue
  rw [hasAssocName_iff] at htrue
  obtain ⟨tid, hmt, _⟩ := htrue
  have := List.of_mem_filter hmt
  simp at this

theorem hasAssocName_clear_other (db : Db) (r r2 : Nat) (name : String)
    (hne : r2 ≠ r) :
    hasAssocName
      { db with mediaTags := db.mediaTags.filter (fun p => !(p.1 == r)) }
      r2 name = hasAssocName db r2 name := by
  apply bool_eq_of_iff
  rw [hasAssocName_iff, hasAssocName_iff]
  constructor
  · rintro ⟨tid, hmt, htg⟩
    exact ⟨tid, List.mem_of_mem_filter hmt, htg⟩
  · rintro ⟨tid, hmt, htg⟩
    refine ⟨tid, List.mem_filter.mpr ⟨hmt, ?_⟩, htg⟩
    simp [hne]

theorem setMediaTags_inv (db : Db) (h : TagInv db) (r : Nat) (T : List String) :
    TagInv (setMediaTags r T db) := by
  simp only [setMediaTags]
  exact foldl_addTag_inv r T _ (clear_inv db r h)

theorem setMediaTags_media (db : Db) (r : Nat) (T : List String) :
    (setMediaTags r T db).media = db.media := by
  simp only [setMediaTags]
  rw [foldl_addTag_media]

theorem setMediaTags_nextMediaId (db : Db) (r : Nat) (T : List String) :
    (setMediaTags r T db).nextMediaId = db.nextMediaId := by
  simp only [setMediaTags]
  rw [foldl_addTag_nextMediaId]

theorem setMediaTags_mem_sub (db : Db) (r : Nat) (T : List String)
    (p : Nat × Nat) (hp : p ∈ (setMediaTags r T db).mediaTags) :
    p ∈ db.mediaTags ∨ p.1 = r := by
  simp only [setMediaTags] at hp
  cases foldl_addTag_mem_sub r T _ p hp with
  | inl h2 => exact Or.inl (List.mem_of_mem_filter h2)
  | inr h2 => exact Or.inr h2

theorem setMediaTags_mediaInv (db : Db) (h : MediaInv db) (r : Nat)
    (T : List String) (hr : r < db.nextMediaId) :
    MediaInv (setMediaTags r T db) := by
  intro p hp
  rw [setMediaTags_nextMediaId]
  cases setMediaTags_mem_sub db r T p hp with
  | inl h2 => exact h p h2
  | inr h2 => rw [h2]; exact hr

/-- The replace-associations characterization: after `setMediaTags r T`,
record `r` is associated with exactly the non-empty normalizations of the
names in `T`. -/
theorem setMediaTags_assoc_self (db : Db) (h : TagInv db) (r : Nat)
    (T : List String) (name : String) :
    hasAssocName (setMediaTags r T db) r name = true ↔
      ∃ s ∈ T, normalizeTag s = name ∧ name ≠ "" := by
  simp only [setMediaTags]
  rw [foldl_addTag_assoc r T _ (clear_inv db r h) r name]
  rw [hasAssocName_clear_self]
  constructor
  · rintro (h0 | ⟨s, hs, _, hnm, hne⟩)
    · exact absurd h0 (by simp)
    · exact ⟨s, hs, hnm, by rw [← hnm]; exact hne⟩
  · rintro ⟨s, hs, hnm, hne⟩
    exact Or.inr ⟨s, hs, rfl, hnm, by rw [hnm]; exact hne⟩

/-- `setMediaTags r T` does not change the associations of any other
record. -/
theorem setMediaTags_assoc_other (db : Db) (h : TagInv db) (r : Nat)
    (T : List String) (r2 : Nat) (name : String) (hne : r2 ≠ r) :
    hasAssocName (setMediaTags r T db) r2 name = hasAssocName db r2 name := by
  simp only [setMediaTags]
  apply bool_eq_of_iff
  rw [foldl_addTag_assoc r T _ (clear_inv db r h) r2 name]
  rw [hasAssocName_clear_other db r r2 name hne]
  constructor
  · rintro (h0 | ⟨s, _, hr2, _⟩)
    · exact h0
    · exact absurd hr2 hne
  · exact Or.inl

theorem tagInv_emptyDb : TagInv emptyDb := by
  unfold TagInv emptyDb
  refine ⟨List.nodup_nil, ?_, ?_, List.nodup_nil⟩ <;> simp

/-- C6: applying `setMediaTags` twice to record `r` with inputs `T1` then
`T2` leaves `r` associated with exactly the non-empty normalized names of
`T2` (no residue of `T1`), and no association pair occurs twice (duplicate
names collapse). -/
theorem c6_setMediaTags_replace (db : Db) (hinv : TagInv db) (r : Nat)
    (T1 T2 : List String) :
    (∀ name,
      hasAssocName (setMediaTags r T2 (setMediaTags r T1 db)) r name = true ↔
        ∃ s ∈ T2, normalizeTag s = name ∧ name ≠ "") ∧
    (setMediaTags r T2 (setMediaTags r T1 db)).mediaTags.Nodup := by
  have h1 : TagInv (setMediaTags r T1 db) := setMediaTags_inv db hinv r T1
  refine ⟨fun name => setMediaTags_assoc_self _ h1 r T2 name, ?_⟩
  have h2 : TagInv (setMediaTags r T2 (setMediaTags r T1 db)) :=
    setMediaTags_inv _ h1 r T2
  exact h2.2.2.2

/-- Witness for C6 at a concrete state: replacing `["a"]` by `["b"]` on
record 1 of the empty database leaves exactly the tag `b` attached. -/
theorem c6_setMediaTags_replace_witness :
    TagInv emptyDb ∧
    (hasAssocName (setMediaTags 1 ["b"] (setMediaTags 1 ["a"] emptyDb)) 1 "b" = true ↔
      ∃ s ∈ ["b"], normalizeTag s = "b" ∧ "b" ≠ "") ∧
    (setMediaTags 1 ["b"] (setMediaTags 1 ["a"] emptyDb)).mediaTags.Nodup :=
  ⟨tagInv_emptyDb,
   (c6_setMediaTags_replace emptyDb tagInv_emptyDb 1 ["a"] ["b"]).1 "b",
   (c6_setMediaTags_replace emptyDb tagInv_emptyDb 1 ["a"] ["b"]).2⟩

/-- C7 counterexample: `parseTagsInput` does not deduplicate - the input
`"a, a"` parses to `["a", "a"]`, which is not a sequence of distinct
names. -/
theorem c7_counterexample :
    parseTagsInput (.strInput "a, a") = .ok ["a", "a"] ∧
    ¬ (["a", "a"] : List String).Nodup := by
  exact ⟨rfl, by decide⟩

/-- C7 (amended): every name produced by `parseTagsInput` is non-empty
(whitespace-only tokens are discarded), trimmed and lowercased -
duplicates may remain, deduplication happens downstream - and the three
empty input shapes (empty string, empty array, non-array-non-string
field) yield the empty sequence rather than an error. -/
theorem c7_parseTagsInput_normalized :
    (∀ (i : TagsInput) (l : List String), parseTagsInput i = .ok l →
      ∀ t ∈ l, t ≠ "" ∧ jsTrim t = t ∧ jsToLower t = t) ∧
    parseTagsInput (.strInput "") = .ok [] ∧
    parseTagsInput (.arrInput []) = .ok [] ∧
    parseTagsInput .otherInput = .ok [] := by
  refine ⟨?_, rfl, rfl, rfl⟩
  intro i l h t ht
  obtain ⟨⟨s0, hs0⟩, hlen⟩ := parse_mem h ht
  refine ⟨(str_length_pos_iff t).mp hlen, ?_, ?_⟩
  · rw [hs0]
    exact jsTrim_jsToLower _ (jsTrim_idem s0)
  · rw [hs0]
    exact jsToLower_idem _

/-- Witness for C7 (amended) on a concrete input. -/
theorem c7_parseTagsInput_normalized_witness :
    parseTagsInput (.strInput " A , b ") = .ok ["a", "b"] ∧
    ("a" ≠ "" ∧ jsTrim "a" = "a" ∧ jsToLower "a" = "a") :=
  ⟨rfl,
   c7_parseTagsInput_normalized.1 (.strInput " A , b ") ["a", "b"] rfl "a"
     (by decide)⟩

/-- C8: tag normalization is idempotent - re-parsing a successful output
returns it unchanged (so in particular the same set of names), and
`"Fantasy, fantasy, FANTASY"` normalizes to the singleton set
`{"fantasy"}`. -/
theorem c8_parse_idempotent :
    (∀ (i : TagsInput) (l : List String), parseTagsInput i = .ok l →
      parseTagsInput (.arrInput (l.map JTag.s)) = .ok l) ∧
    (∃ l, parseTagsInput (.strInput "Fantasy, fantasy, FANTASY") = .ok l ∧
      l.dedup = ["fantasy"]) := by
  constructor
  · intro i l h
    apply parse_arr_normalized
    intro t ht
    obtain ⟨⟨s0, hs0⟩, hlen⟩ := parse_mem h ht
    refine ⟨?_, hlen⟩
    rw [hs0]
    exact normalizeTag_idem s0
  · refine ⟨["fantasy", "fantasy", "fantasy"], rfl, by decide⟩

/-- Witness for C8 on a concrete input. -/
theorem c8_parse_idempotent_witness :
    parseTagsInput (.strInput "Fantasy, fantasy, FANTASY") =
      .ok ["fantasy", "fantasy", "fantasy"] ∧
    parseTagsInput (.arrInput (["fantasy", "fantasy", "fantasy"].map JTag.s)) =
      .ok ["fantasy", "fantasy", "fantasy"] :=
  ⟨rfl,
   c8_parse_idempotent.1 (.strInput "Fantasy, fantasy, FANTASY")
     ["fantasy", "fantasy", "fantasy"] rfl⟩

/-- C9 counterexample: the path id `"0"` does not denote a positive
integer, yet the legacy delete handler answers 404 (`parseInt("0")` is
`0`, not NaN, so the 400 branch is skipped), not 400. -/
theorem c9_counterexample :
    (deleteEndpoint "0" emptyDb).1 = 404 ∧ (404 : Nat) ≠ 400 :=
  ⟨rfl, by decide⟩

/-- C9 (amended): on the legacy `DELETE /api/media/:id` route, if the
path id does not parse to any integer (`parseInt` yields NaN) the
response is 400 with no state change; if it parses to an integer (even a
non-positive one) matching no record, the response is 404 - not a fatal
error - with no state change; if it matches a record, the response is
200 and exactly the rows bearing that id are removed (other rows, the
tag table and the association table are untouched). -/
theorem c9_delete_cases (idStr : String) (db : Db) :
    (jsParseInt idStr = none → deleteEndpoint idStr db = (400, db)) ∧
    (∀ v, jsParseInt idStr = some v →
      (∀ r ∈ db.media, (r.id : Int) ≠ v) →
      deleteEndpoint idStr db = (404, db)) ∧
    (∀ v, jsParseInt idStr = some v →
      (∃ r ∈ db.media, (r.id : Int) = v) →
      (deleteEndpoint idStr db).1 = 200 ∧
      (deleteEndpoint idStr db).2.media =
        db.media.filter (fun r => !((r.id : Int) == v)) ∧
      (deleteEndpoint idStr db).2.mediaTags = db.mediaTags ∧
      (deleteEndpoint idStr db).2.tags = db.tags) := by
  refine ⟨?_, ?_, ?_⟩
  · intro h
    unfold deleteEndpoint
    rw [h]
  · intro v h hall
    unfold deleteEndpoint
    rw [h]
    dsimp only
    have hfull : (db.media.filter (fun r => !((r.id : Int) == v))).length
        = db.media.length := by
      apply List.filter_length_eq_length.mpr
      intro r hr
      simp only [Bool.not_eq_true']
      rw [beq_eq_false_iff_ne]
      exact hall r hr
    split
    next => rfl
    next hcond => exact absurd hfull hcond
  · intro v h hex
    unfold deleteEndpoint
    rw [h]
    dsimp only
    obtain ⟨r, hr, hrv⟩ := hex
    have hlt : (db.media.filter (fun r => !((r.id : Int) == v))).length
        < db.media.length := by
      apply lt_of_le_of_ne (List.length_filter_le _ _)
      intro heq
      have := List.filter_length_eq_length.mp heq r hr
      simp only [Bool.not_eq_true'] at this
      rw [beq_eq_false_iff_ne] at this
      exact this hrv
    have hneq : (db.media.filter (fun r => !((r.id : Int) == v))).length
        ≠ db.media.length := Nat.ne_of_lt hlt
    split
    next hcond => exact absurd hcond hneq
    next => exact ⟨rfl, rfl, rfl, rfl⟩

/-- Witness for C9 (amended) at concrete inputs: a non-numeric id, a
missing id, and a present id. -/
theorem c9_delete_cases_witness :
    deleteEndpoint "abc" emptyDb = (400, emptyDb) ∧
    deleteEndpoint "7" emptyDb = (404, emptyDb) ∧
    ((deleteEndpoint "1" oneRowDb).1 = 200 ∧
     (deleteEndpoint "1" oneRowDb).2.media =
       oneRowDb.media.filter (fun r => !((r.id : Int) == 1)) ∧
     (deleteEndpoint "1" oneRowDb).2.mediaTags = oneRowDb.mediaTags ∧
     (deleteEndpoint "1" oneRowDb).2.tags = oneRowDb.tags) :=
  ⟨(c9_delete_cases "abc" emptyDb).1 rfl,
   (c9_delete_cases "7" emptyDb).2.1 7 rfl (by intro r hr; simp [emptyDb] at hr),
   (c9_delete_cases "1" oneRowDb).2.2 1 rfl
     ⟨mkRow 1 plainItem, by decide, by decide⟩⟩

/-- C10: the code's behaviour at the failing input.  Deleting record 1,
which carries the tag association (1, 1), removes the media row but
leaves the association row in `media_tags`: the connection never issues
`PRAGMA foreign_keys = ON`, so under SQLite's default (foreign-key
enforcement OFF) the `ON DELETE CASCADE` declared in the `media_tags`
schema never fires and the association is orphaned instead of
cascade-deleted. -/
theorem c10_cascade_code_behavior :
    (deleteEndpoint "1" oneRowDb).1 = 200 ∧
    (deleteEndpoint "1" oneRowDb).2.media = [] ∧
    (deleteEndpoint "1" oneRowDb).2.mediaTags = [(1, 1)] :=
  ⟨rfl, rfl, rfl⟩

/-! ## Digit-string arithmetic (year comparison as done by the SQL) -/

theorem digitVal_lt_10 {c : Char} (h : isDigitB c = true) : digitVal c < 10 := by
  unfold isDigitB at h
  simp only [Bool.and_eq_true, decide_eq_true_eq] at h
  unfold digitVal
  omega

theorem digitsVal_lt (l : List Char) (h : ∀ c ∈ l, isDigitB c = true) :
    digitsVal l < 10 ^ l.length := by
  induction l with
  | nil => simp [digitsVal]
  | cons c cs ih =>
    have hc := digitVal_lt_10 (h c (List.mem_cons_self c cs))
    have hcs := ih (fun d hd => h d (List.mem_cons_of_mem c hd))
    simp only [digitsVal, List.length_cons, pow_succ]
    calc digitVal c * 10 ^ cs.length + digitsVal cs
        < digitVal c * 10 ^ cs.length + 10 ^ cs.length := by omega
      _ = (digitVal c + 1) * 10 ^ cs.length := by ring
      _ ≤ 10 * 10 ^ cs.length := by
          apply Nat.mul_le_mul_right
          omega
      _ = 10 ^ cs.length * 10 := by ring

theorem mul_add_inj {K a b x y : Nat} (hK : 0 < K) (hx : x < K) (hy : y < K)
    (h : a * K + x = b * K + y) : a = b ∧ x = y := by
  have ha : (a * K + x) / K = a := by
    rw [Nat.mul_comm a K, Nat.mul_add_div hK, Nat.div_eq_of_lt hx, Nat.add_zero]
  have hb : (b * K + y) / K = b := by
    rw [Nat.mul_comm b K, Nat.mul_add_div hK, Nat.div_eq_of_lt hy, Nat.add_zero]
  have hab : a = b := by rw [← ha, ← hb, h]
  subst hab
  exact ⟨rfl, by omega⟩

theorem digit_char_inj {a b : Char} (ha : isDigitB a = true)
    (hb : isDigitB b = true) (h : digitVal a = digitVal b) : a = b := by
  unfold isDigitB at ha hb
  simp only [Bool.and_eq_true, decide_eq_true_eq] at ha hb
  unfold digitVal at h
  exact char_eq_of_toNat_eq (by omega)

theorem digitsVal_inj : ∀ l1 l2 : List Char, l1.length = l2.length →
    (∀ c ∈ l1, isDigitB c = true) → (∀ c ∈ l2, isDigitB c = true) →
    digitsVal l1 = digitsVal l2 → l1 = l2 := by
  intro l1
  induction l1 with
  | nil =>
    intro l2 hlen _ _ _
    cases l2 with
    | nil => rfl
    | cons b bs => simp at hlen
  | cons a as ih =>
    intro l2 hlen h1 h2 h
    cases l2 with
    | nil => simp at hlen
    | cons b bs =>
      simp only [List.length_cons] at hlen
      have hlen2 : as.length = bs.length := by omega
      simp only [digitsVal, hlen2] at h
      have hxa := digitsVal_lt as (fun c hc => h1 c (List.mem_cons_of_mem a hc))
      have hxb := digitsVal_lt bs (fun c hc => h2 c (List.mem_cons_of_mem b hc))
      rw [hlen2] at hxa
      obtain ⟨hd, hrest⟩ := mul_add_inj
        (Nat.pos_pow_of_pos bs.length (by omega)) hxa hxb h
      have hab : a = b := digit_char_inj (h1 a (List.mem_cons_self a as))
        (h2 b (List.mem_cons_self b bs)) hd
      have hrec := ih bs hlen2
        (fun c hc => h1 c (List.mem_cons_of_mem a hc))
        (fun c hc => h2 c (List.mem_cons_of_mem b hc)) hrest
      rw [hab, hrec]

theorem mul_add_lt {K a b x : Nat} (hx : x < K) (hab : a < b) (y : Nat) :
    a * K + x < b * K + y := by
  have h1 : a * K + x < (a + 1) * K := by
    rw [Nat.succ_mul]
    omega
  have h2 : (a + 1) * K ≤ b * K := Nat.mul_le_mul_right K hab
  omega

/-- On equal-length digit strings, the BINARY (lexicographic) comparison
agrees with the numeric comparison of their values. -/
theorem lexLt_digits : ∀ l1 l2 : List Char, l1.length = l2.length →
    (∀ c ∈ l1, isDigitB c = true) → (∀ c ∈ l2, isDigitB c = true) →
    (lexLt l1 l2 = true ↔ digitsVal l1 < digitsVal l2) := by
  intro l1
  induction l1 with
  | nil =>
    intro l2 hlen _ _
    cases l2 with
    | nil => simp [lexLt, digitsVal]
    | cons b bs => simp at hlen
  | cons a as ih =>
    intro l2 hlen h1 h2
    cases l2 with
    | nil => simp at hlen
    | cons b bs =>
      simp only [List.length_cons] at hlen
      have hlen2 : as.length = bs.length := by omega
      have hda := h1 a (List.mem_cons_self a as)
      have hdb := h2 b (List.mem_cons_self b bs)
      have hxa := digitsVal_lt as (fun c hc => h1 c (List.mem_cons_of_mem a hc))
      have hxb := digitsVal_lt bs (fun c hc => h2 c (List.mem_cons_of_mem b hc))
      rw [hlen2] at hxa
      have hK : 0 < 10 ^ bs.length := Nat.pos_pow_of_pos bs.length (by omega)
      simp only [lexLt, digitsVal, hlen2]
      unfold isDigitB at hda hdb
      simp only [Bool.and_eq_true, decide_eq_true_eq] at hda hdb
      by_cases hab : a.toNat < b.toNat
      · rw [if_pos hab]
        have hdv : digitVal a < digitVal b := by
          unfold digitVal
          omega
        simp only [true_iff]
        exact mul_add_lt hxa hdv _
      · rw [if_neg hab]
        by_cases hba : b.toNat < a.toNat
        · rw [if_pos hba]
          have hdv : digitVal b < digitVal a := by
            unfold digitVal
            omega
          have := mul_add_lt hxb hdv (digitsVal as)
          constructor
          · intro hfalse
            exact absurd hfalse (by simp)
          · intro hlt
            omega
        · rw [if_neg hba]
          have heqc : a = b := char_eq_of_toNat_eq (by omega)
          have hdv : digitVal a = digitVal b := by rw [heqc]
          rw [ih bs hlen2 (fun c hc => h1 c (List.mem_cons_of_mem a hc))
            (fun c hc => h2 c (List.mem_cons_of_mem b hc))]
          have hgen : ∀ t u v : Nat, u < v ↔ t + u < t + v := by
            intro t u v
            omega
          rw [hdv]
          exact hgen (digitVal b * 10 ^ bs.length) (digitsVal as) (digitsVal bs)

/-- `lexLt` is asymmetric. -/
theorem lexLt_asymm : ∀ l1 l2 : List Char,
    lexLt l1 l2 = true → lexLt l2 l1 = false := by
  intro l1
  induction l1 with
  | nil =>
    intro l2 h
    cases l2 with
    | nil => exact absurd h (by simp [lexLt])
    | cons b bs => rfl
  | cons a as ih =>
    intro l2 h
    cases l2 with
    | nil => exact absurd h (by simp [lexLt])
    | cons b bs =>
      simp only [lexLt] at h ⊢
      by_cases hab : a.toNat < b.toNat
      · rw [if_neg (by omega), if_pos hab]
      · rw [if_neg hab] at h
        by_cases hba : b.toNat < a.toNat
        · rw [if_pos hba] at h
          exact absurd h (by simp)
        · rw [if_neg hba] at h
          rw [if_neg hab, if_neg hba]
          exact ih bs h

/-- Failing `lexLt` both ways is transitive (the "less or equal" view of
the BINARY collation is transitive). -/
theorem lexLt_neg_trans : ∀ l1 l2 l3 : List Char,
    lexLt l1 l2 = false → lexLt l2 l3 = false → lexLt l1 l3 = false := by
  intro l1
  induction l1 with
  | nil =>
    intro l2 l3 h12 h23
    cases l2 with
    | cons b bs => exact absurd h12 (by simp [lexLt])
    | nil =>
      cases l3 with
      | cons c cs => exact absurd h23 (by simp [lexLt])
      | nil => rfl
  | cons a as ih =>
    intro l2 l3 h12 h23
    cases l3 with
    | nil => rfl
    | cons c cs =>
      cases l2 with
      | nil => exact absurd h23 (by simp [lexLt])
      | cons b bs =>
        simp only [lexLt] at h12 h23 ⊢
        by_cases hab : a.toNat < b.toNat
        · rw [if_pos hab] at h12
          exact absurd h12 (by simp)
        · rw [if_neg hab] at h12
          by_cases hbc : b.toNat < c.toNat
          · rw [if_pos hbc] at h23
            exact absurd h23 (by simp)
          · rw [if_neg hbc] at h23
            by_cases hba : b.toNat < a.toNat
            · rw [if_neg (by omega), if_pos (by omega)]
            · rw [if_neg hba] at h12
              by_cases hcb : c.toNat < b.toNat
              · rw [if_neg (by omega), if_pos (by omega)]
              · rw [if_neg hcb] at h23
                rw [if_neg (by omega), if_neg (by omega)]
                exact ih bs cs h12 h23

/-- A SQLite-valid date string has a four-digit year prefix. -/
theorem sqlDateValid_year (s : String) (h : sqlDateValid s = true) :
    (s.data.take 4).length = 4 ∧ ∀ c ∈ s.data.take 4, isDigitB c = true := by
  unfold sqlDateValid at h
  split at h
  next y1 y2 y3 y4 sep1 m1 m2 sep2 d1 d2 heq =>
    simp only [Bool.and_eq_true] at h
    rw [heq]
    refine ⟨rfl, ?_⟩
    intro c hc
    have hc4 : c = y1 ∨ c = y2 ∨ c = y3 ∨ c = y4 := by
      simp only [List.take, List.mem_cons, List.not_mem_nil, or_false] at hc
      tauto
    rcases hc4 with h4 | h4 | h4 | h4 <;> rw [h4] <;> tauto
  next heq => simp at h

theorem string_mk_eq {l : List Char} {y : String} :
    (⟨l⟩ : String) = y ↔ l = y.data := by
  constructor
  · exact congrArg String.data
  · intro h
    cases y with
    | mk d => rw [h]

theorem nEq_year (s y : String) (hs : sqlDateValid s = true)
    (hy : y.data.length = 4 ∧ ∀ c ∈ y.data, isDigitB c = true) :
    nEq (sqlYearStr s) y = true ↔ yearNum s = yearNum y := by
  obtain ⟨hts, hds⟩ := sqlDateValid_year s hs
  have hyall : y.data.take 4 = y.data := List.take_of_length_le (by omega)
  unfold sqlYearStr
  rw [if_pos hs]
  unfold nEq
  rw [beq_iff_eq, string_mk_eq]
  unfold yearNum
  rw [hyall]
  constructor
  · intro heq
    rw [heq]
  · intro heq
    exact digitsVal_inj _ _ (by rw [hts, hy.1]) hds hy.2 heq

theorem nLt_year_left (s y : String) (hs : sqlDateValid s = true)
    (hy : y.data.length = 4 ∧ ∀ c ∈ y.data, isDigitB c = true) :
    nLt (sqlYearStr s) (some y) = true ↔ yearNum s < yearNum y := by
  obtain ⟨hts, hds⟩ := sqlDateValid_year s hs
  have hyall : y.data.take 4 = y.data := List.take_of_length_le (by omega)
  unfold sqlYearStr
  rw [if_pos hs]
  unfold nLt
  unfold yearNum
  rw [hyall]
  exact lexLt_digits _ _ (by rw [hts, hy.1]) hds hy.2

theorem nLt_year_right (s y : String) (hs : sqlDateValid s = true)
    (hy : y.data.length = 4 ∧ ∀ c ∈ y.data, isDigitB c = true) :
    nLt (some y) (sqlYearStr s) = true ↔ yearNum y < yearNum s := by
  obtain ⟨hts, hds⟩ := sqlDateValid_year s hs
  have hyall : y.data.take 4 = y.data := List.take_of_length_le (by omega)
  unfold sqlYearStr
  rw [if_pos hs]
  unfold nLt
  unfold yearNum
  rw [hyall]
  exact lexLt_digits _ _ (by rw [hts, hy.1]) hy.2 hds


/-- The `WHERE` clause agrees with the four numeric disjuncts of the
specification for calendar-valid stored dates. -/
theorem matchesYear_iff (y : String) (r : MediaRow)
    (hy : y.data.length = 4 ∧ ∀ c ∈ y.data, isDigitB c = true)
    (hs : sqlDateValid r.start_date = true)
    (he : ∀ e, r.end_date = some e → sqlDateValid e = true) :
    matchesYear y r = true ↔
      (yearNum r.start_date = yearNum y ∨
       (∃ e, r.end_date = some e ∧ yearNum e = yearNum y) ∨
       (∃ e, r.end_date = some e ∧ yearNum r.start_date < yearNum y ∧
         yearNum y < yearNum e) ∨
       (r.end_date = none ∧ yearNum r.start_date = yearNum y)) := by
  cases hend : r.end_date with
  | none =>
    unfold matchesYear
    rw [hend]
    dsimp only
    simp only [Bool.or_false, Bool.or_eq_true]
    rw [nEq_year _ _ hs hy]
    simp
  | some e =>
    have hse : sqlDateValid e = true := he e hend
    unfold matchesYear
    rw [hend]
    dsimp only
    simp only [Option.getD_some, Bool.or_false, Bool.or_eq_true, Bool.and_eq_true]
    rw [nEq_year _ _ hs hy, nEq_year _ _ hse hy,
      nLt_year_left _ _ hs hy, nLt_year_right _ _ hse hy]
    simp only [Option.some.injEq, reduceCtorEq, false_and, and_false, or_false,
      exists_eq_left']
    tauto

theorem rowLe_total (a b : MediaRow) : (rowLe a b || rowLe b a) = true := by
  unfold rowLe
  cases h1 : lexLt b.start_date.data a.start_date.data
  · simp
  · cases h2 : lexLt a.start_date.data b.start_date.data
    · simp
    · have := lexLt_asymm _ _ h1
      rw [h2] at this
      exact absurd this (by simp)

theorem rowLe_trans (a b c : MediaRow) (h1 : rowLe a b = true)
    (h2 : rowLe b c = true) : rowLe a c = true := by
  unfold rowLe at h1 h2 ⊢
  rw [Bool.not_eq_true'] at h1 h2 ⊢
  exact lexLt_neg_trans _ _ _ h2 h1

/-- C5: a stored record (with calendar-valid dates) appears in the year
query for the four-digit year `y` exactly when one of the four disjuncts
of the specification holds, and the returned sequence is ordered by
`start_date` ascending. -/
theorem c5_year_query (db : Db) (y : String)
    (hy : y.data.length = 4 ∧ ∀ c ∈ y.data, isDigitB c = true)
    (hdb : ∀ r ∈ db.media, sqlDateValid r.start_date = true ∧
      ∀ e, r.end_date = some e → sqlDateValid e = true) :
    (∀ r, r ∈ queryByYear y db ↔ r ∈ db.media ∧
      (yearNum r.start_date = yearNum y ∨
       (∃ e, r.end_date = some e ∧ yearNum e = yearNum y) ∨
       (∃ e, r.end_date = some e ∧ yearNum r.start_date < yearNum y ∧
         yearNum y < yearNum e) ∨
       (r.end_date = none ∧ yearNum r.start_date = yearNum y))) ∧
    (queryByYear y db).Pairwise (fun a b => rowLe a b = true) := by
  constructor
  · intro r
    unfold queryByYear
    rw [List.mem_mergeSort, List.mem_filter]
    constructor
    · rintro ⟨hmem, hmatch⟩
      exact ⟨hmem,
        (matchesYear_iff y r hy (hdb r hmem).1 (hdb r hmem).2).mp hmatch⟩
    · rintro ⟨hmem, hdisj⟩
      exact ⟨hmem,
        (matchesYear_iff y r hy (hdb r hmem).1 (hdb r hmem).2).mpr hdisj⟩
  · unfold queryByYear
    exact List.sorted_mergeSort rowLe_trans rowLe_total _

/-- Witness for C5 at a concrete database and year. -/
theorem c5_year_query_witness :
    (mkRow 1 plainItem ∈ queryByYear "2023" oneRowDb ↔
      mkRow 1 plainItem ∈ oneRowDb.media ∧
      (yearNum (mkRow 1 plainItem).start_date = yearNum "2023" ∨
       (∃ e, (mkRow 1 plainItem).end_date = some e ∧ yearNum e = yearNum "2023") ∨
       (∃ e, (mkRow 1 plainItem).end_date = some e ∧
         yearNum (mkRow 1 plainItem).start_date < yearNum "2023" ∧
         yearNum "2023" < yearNum e) ∨
       ((mkRow 1 plainItem).end_date = none ∧
         yearNum (mkRow 1 plainItem).start_date = yearNum "2023"))) ∧
    (queryByYear "2023" oneRowDb).Pairwise (fun a b => rowLe a b = true) :=
  ⟨(c5_year_query oneRowDb "2023" (by decide)
      (by
        intro r hr
        have hr2 : r = mkRow 1 plainItem := by
          simpa [oneRowDb] using hr
        subst hr2
        exact ⟨by decide, fun e he => Option.noConfusion he⟩)).1 _,
   (c5_year_query oneRowDb "2023" (by decide)
      (by
        intro r hr
        have hr2 : r = mkRow 1 plainItem := by
          simpa [oneRowDb] using hr
        subst hr2
        exact ⟨by decide, fun e he => Option.noConfusion he⟩)).2⟩

/-! ## Lemmas about the bulk loop -/

theorem validateItem_msg_ne (it : RawItem) (msg : String)
    (h : validateItem it = some msg) : msg ≠ "" := by
  unfold validateItem at h
  split_ifs at h with h1 h2 h3
  · rw [Option.some.injEq] at h
    rw [← h]
    decide
  · rw [Option.some.injEq] at h
    rw [← h]
    intro hcon
    have := congrArg String.length hcon
    rw [String.length_append] at this
    have h20 : ("Invalid media type: ").length = 20 := by decide
    rw [h20] at this
    have h0 : ("" : String).length = 0 := rfl
    omega
  · rw [Option.some.injEq] at h
    rw [← h]
    decide

theorem mapM_tag_error (f : JTag → Except String String) :
    ∀ (xs : List JTag) (msg : String), xs.mapM f = Except.error msg →
      ∃ x ∈ xs, f x = Except.error msg := by
  intro xs
  induction xs with
  | nil =>
    intro msg h
    have h2 : (Except.ok [] : Except String (List String)) = Except.error msg := h
    exact Except.noConfusion h2
  | cons x xs ih =>
    intro msg h
    rw [List.mapM_cons] at h
    cases hfx : f x with
    | error e =>
      rw [hfx] at h
      have h2 : (Except.error e : Except String (List String)) = Except.error msg := h
      rw [Except.error.injEq] at h2
      exact ⟨x, List.mem_cons_self x xs, by rw [hfx, h2]⟩
    | ok v =>
      rw [hfx] at h
      cases hrest : xs.mapM f with
      | error e =>
        rw [hrest] at h
        have h2 : (Except.error e : Except String (List String)) = Except.error msg := h
        rw [Except.error.injEq] at h2
        obtain ⟨x0, hx0, hfx0⟩ := ih e hrest
        exact ⟨x0, List.mem_cons_of_mem x hx0, by rw [hfx0, h2]⟩
      | ok vs =>
        rw [hrest] at h
        exact Except.noConfusion h

theorem parse_error_msg (t : TagsInput) (msg : String)
    (h : parseTagsInput t = .error msg) : msg ≠ "" := by
  cases t with
  | strInput v => exact Except.noConfusion h
  | otherInput => exact Except.noConfusion h
  | arrInput xs =>
    simp only [parseTagsInput, bind, pure] at h
    cases hmm : xs.mapM (fun t =>
        match t with
        | .s v => Except.ok (normalizeTag v)
        | .nonString => Except.error "tag.trim is not a function") with
    | ok mapped =>
      rw [hmm] at h
      exact Except.noConfusion h
    | error e =>
      rw [hmm] at h
      have h2 : (Except.error e : Except String (List String)) = Except.error msg := h
      rw [Except.error.injEq] at h2
      obtain ⟨x, _, hfx⟩ := mapM_tag_error _ xs e hmm
      cases x with
      | s v => exact Except.noConfusion hfx
      | nonString =>
        rw [Except.error.injEq] at hfx
        rw [← h2, ← hfx]
        decide

/-- For a parse output `N`, the replaced-association predicate collapses
to plain membership in `N`. -/
theorem assoc_norm_set (N : List String)
    (hN : ∀ t ∈ N, normalizeTag t = t ∧ 0 < t.length) (name : String) :
    (∃ s0 ∈ N, normalizeTag s0 = name ∧ name ≠ "") ↔ name ∈ N := by
  constructor
  · rintro ⟨s0, hs0, hnm, _⟩
    have hid := (hN s0 hs0).1
    have hname : name = s0 := by rw [← hnm, hid]
    rw [hname]
    exact hs0
  · intro hmem
    have h1 := (hN name hmem).1
    have h2 := (hN name hmem).2
    exact ⟨name, hmem, h1, (str_length_pos_iff name).mp h2⟩

/-- The three possible outcomes of one bulk-loop iteration: validation
failure (no write), tags error after the row insert (row kept), full
success (row inserted and tags replaced). -/
theorem stepItem_cases (i : Nat) (it : RawItem) (db : Db) :
    (∃ msg, validateItem it = some msg ∧
      stepItem i it db = (.fail ⟨i, titleOrUnknown it, msg⟩, db)) ∨
    (∃ msg, validateItem it = none ∧ parseTagsInput it.tags = .error msg ∧
      stepItem i it db = (.fail ⟨i, titleOrUnknown it, msg⟩,
        { db with media := db.media ++ [mkRow db.nextMediaId it],
                  nextMediaId := db.nextMediaId + 1 })) ∨
    (∃ N, validateItem it = none ∧ parseTagsInput it.tags = .ok N ∧
      stepItem i it db = (.succ ⟨i, db.nextMediaId, it.title.getD ""⟩,
        setMediaTags db.nextMediaId N
          { db with media := db.media ++ [mkRow db.nextMediaId it],
                    nextMediaId := db.nextMediaId + 1 })) := by
  unfold stepItem
  cases hval : validateItem it with
  | some msg => exact Or.inl ⟨msg, rfl, rfl⟩
  | none =>
    cases hp : parseTagsInput it.tags with
    | error msg => exact Or.inr (Or.inl ⟨msg, rfl, rfl, rfl⟩)
    | ok N => exact Or.inr (Or.inr ⟨N, rfl, rfl, rfl⟩)

/-- A batch without JSON `null` items runs to completion (the loop never
throws, so the transaction commits). -/
theorem bulkRun_ok : ∀ (items : List (Option RawItem)) (i : Nat) (db : Db),
    (∀ x ∈ items, x ≠ none) →
    ∃ s f db2, bulkRun i items db = .ok (s, f, db2) := by
  intro items
  induction items with
  | nil =>
    intro i db _
    exact ⟨[], [], db, rfl⟩
  | cons x rest ih =>
    intro i db hnn
    cases x with
    | none => exact absurd rfl (hnn none (List.mem_cons_self _ _))
    | some it =>
      have hrest : ∀ x ∈ rest, x ≠ none :=
        fun x hx => hnn x (List.mem_cons_of_mem _ hx)
      rcases stepItem_cases i it db with
        ⟨msg, hval, hstep⟩ | ⟨msg, hval, hp, hstep⟩ | ⟨N, hval, hp, hstep⟩
      · obtain ⟨s, f, db2, hrun⟩ := ih (i + 1) db hrest
        refine ⟨s, ⟨i, titleOrUnknown it, msg⟩ :: f, db2, ?_⟩
        simp only [bulkRun]
        rw [hstep]
        dsimp only
        rw [hrun]
        rfl
      · obtain ⟨s, f, db2, hrun⟩ := ih (i + 1)
          { db with media := db.media ++ [mkRow db.nextMediaId it],
                    nextMediaId := db.nextMediaId + 1 } hrest
        refine ⟨s, ⟨i, titleOrUnknown it, msg⟩ :: f, db2, ?_⟩
        simp only [bulkRun]
        rw [hstep]
        dsimp only
        rw [hrun]
        rfl
      · obtain ⟨s, f, db2, hrun⟩ := ih (i + 1)
          (setMediaTags db.nextMediaId N
            { db with media := db.media ++ [mkRow db.nextMediaId it],
                      nextMediaId := db.nextMediaId + 1 }) hrest
        refine ⟨⟨i, db.nextMediaId, it.title.getD ""⟩ :: s, f, db2, ?_⟩
        simp only [bulkRun]
        rw [hstep]
        dsimp only
        rw [hrun]
        rfl

/-- Inversion of one successful bulk-loop step on a non-null item. -/
theorem bulkRun_cons_inv (i : Nat) (it : RawItem) (rest : List (Option RawItem))
    (db : Db) (s : List SuccessEntry) (f : List FailEntry) (db2 : Db)
    (h : bulkRun i (some it :: rest) db = .ok (s, f, db2)) :
    (∃ msg f2, validateItem it = some msg ∧
      bulkRun (i + 1) rest db = .ok (s, f2, db2) ∧
      f = ⟨i, titleOrUnknown it, msg⟩ :: f2) ∨
    (∃ msg f2, validateItem it = none ∧
      parseTagsInput it.tags = .error msg ∧
      bulkRun (i + 1) rest
        { db with media := db.media ++ [mkRow db.nextMediaId it],
                  nextMediaId := db.nextMediaId + 1 } = .ok (s, f2, db2) ∧
      f = ⟨i, titleOrUnknown it, msg⟩ :: f2) ∨
    (∃ N s2, validateItem it = none ∧ parseTagsInput it.tags = .ok N ∧
      bulkRun (i + 1) rest
        (setMediaTags db.nextMediaId N
          { db with media := db.media ++ [mkRow db.nextMediaId it],
                    nextMediaId := db.nextMediaId + 1 }) = .ok (s2, f, db2) ∧
      s = ⟨i, db.nextMediaId, it.title.getD ""⟩ :: s2) := by
  rcases stepItem_cases i it db with
    ⟨msg, hval, hstep⟩ | ⟨msg, hval, hp, hstep⟩ | ⟨N, hval, hp, hstep⟩
  · simp only [bulkRun] at h
    rw [hstep] at h
    dsimp only at h
    cases hrun : bulkRun (i + 1) rest db with
    | error e =>
      rw [hrun] at h
      exact Except.noConfusion h
    | ok t =>
      obtain ⟨s2, f2, db3⟩ := t
      rw [hrun] at h
      have h2 := Except.ok.inj h
      rw [Prod.mk.injEq, Prod.mk.injEq] at h2
      obtain ⟨hs, hf, hdb⟩ := h2
      dsimp only at hs hf hdb
      refine Or.inl ⟨msg, f2, hval, ?_, hf.symm⟩
      rw [hs, hdb]
  · simp only [bulkRun] at h
    rw [hstep] at h
    dsimp only at h
    cases hrun : bulkRun (i + 1) rest
      { db with media := db.media ++ [mkRow db.nextMediaId it],
                nextMediaId := db.nextMediaId + 1 } with
    | error e =>
      rw [hrun] at h
      exact Except.noConfusion h
    | ok t =>
      obtain ⟨s2, f2, db3⟩ := t
      rw [hrun] at h
      have h2 := Except.ok.inj h
      rw [Prod.mk.injEq, Prod.mk.injEq] at h2
      obtain ⟨hs, hf, hdb⟩ := h2
      dsimp only at hs hf hdb
      refine Or.inr (Or.inl ⟨msg, f2, hval, hp, ?_, hf.symm⟩)
      rw [hs, hdb]
  · simp only [bulkRun] at h
    rw [hstep] at h
    dsimp only at h
    cases hrun : bulkRun (i + 1) rest
      (setMediaTags db.nextMediaId N
        { db with media := db.media ++ [mkRow db.nextMediaId it],
                  nextMediaId := db.nextMediaId + 1 }) with
    | error e =>
      rw [hrun] at h
      exact Except.noConfusion h
    | ok t =>
      obtain ⟨s2, f2, db3⟩ := t
      rw [hrun] at h
      have h2 := Except.ok.inj h
      rw [Prod.mk.injEq, Prod.mk.injEq] at h2
      obtain ⟨hs, hf, hdb⟩ := h2
      dsimp only at hs hf hdb
      refine Or.inr (Or.inr ⟨N, s2, hval, hp, ?_, hs.symm⟩)
      rw [hrun, hf, hdb]

theorem bulkRun_nil_inv (i : Nat) (db : Db) (s : List SuccessEntry)
    (f : List FailEntry) (db2 : Db)
    (h : bulkRun i [] db = .ok (s, f, db2)) :
    s = [] ∧ f = [] ∧ db2 = db := by
  have h2 : (Except.ok ([], [], db) : Except Unit _) = .ok (s, f, db2) := h
  have h3 := Except.ok.inj h2
  rw [Prod.mk.injEq, Prod.mk.injEq] at h3
  exact ⟨h3.1.symm, h3.2.1.symm, h3.2.2.symm⟩

/-- Every submitted index appears exactly once across the success and
failed reports (in particular processing never stops early). -/
theorem bulkRun_perm : ∀ (items : List (Option RawItem)) (i : Nat) (db : Db)
    (s : List SuccessEntry) (f : List FailEntry) (db2 : Db),
    bulkRun i items db = .ok (s, f, db2) →
    (s.map SuccessEntry.index ++ f.map FailEntry.index).Perm
      (List.range' i items.length) := by
  intro items
  induction items with
  | nil =>
    intro i db s f db2 h
    obtain ⟨hs, hf, _⟩ := bulkRun_nil_inv i db s f db2 h
    rw [hs, hf]
    simp
  | cons x rest ih =>
    intro i db s f db2 h
    cases x with
    | none => exact Except.noConfusion h
    | some it =>
      have hr : List.range' i (rest.length + 1)
          = i :: List.range' (i + 1) rest.length := rfl
      rcases bulkRun_cons_inv i it rest db s f db2 h with
        ⟨msg, f2, hval, hrun, hfeq⟩ | ⟨msg, f2, hval, hp, hrun, hfeq⟩ |
        ⟨N, s2, hval, hp, hrun, hseq⟩
      · have hperm := ih (i + 1) _ s f2 db2 hrun
        rw [hfeq, List.map_cons]
        simp only [List.length_cons]
        rw [hr]
        exact List.perm_middle.trans (hperm.cons i)
      · have hperm := ih (i + 1) _ s f2 db2 hrun
        rw [hfeq, List.map_cons]
        simp only [List.length_cons]
        rw [hr]
        exact List.perm_middle.trans (hperm.cons i)
      · have hperm := ih (i + 1) _ s2 f db2 hrun
        rw [hseq, List.map_cons]
        simp only [List.length_cons]
        rw [hr]
        exact hperm.cons i

/-- Every failure entry carries a non-empty (human-readable) message. -/
theorem bulkRun_msgs : ∀ (items : List (Option RawItem)) (i : Nat) (db : Db)
    (s : List SuccessEntry) (f : List FailEntry) (db2 : Db),
    bulkRun i items db = .ok (s, f, db2) →
    ∀ e ∈ f, e.error ≠ "" := by
  intro items
  induction items with
  | nil =>
    intro i db s f db2 h e he
    obtain ⟨_, hf, _⟩ := bulkRun_nil_inv i db s f db2 h
    rw [hf] at he
    exact absurd he (List.not_mem_nil e)
  | cons x rest ih =>
    intro i db s f db2 h e he
    cases x with
    | none => exact Except.noConfusion h
    | some it =>
      rcases bulkRun_cons_inv i it rest db s f db2 h with
        ⟨msg, f2, hval, hrun, hfeq⟩ | ⟨msg, f2, hval, hp, hrun, hfeq⟩ |
        ⟨N, s2, hval, hp, hrun, hseq⟩
      · rw [hfeq] at he
        cases he with
        | head => exact validateItem_msg_ne it msg hval
        | tail _ hmem => exact ih (i + 1) _ s f2 db2 hrun e hmem
      · rw [hfeq] at he
        cases he with
        | head => exact parse_error_msg it.tags msg hp
        | tail _ hmem => exact ih (i + 1) _ s f2 db2 hrun e hmem
      · exact ih (i + 1) _ s2 f db2 hrun e he

/-- The committed media table is the prior one plus exactly one row per
item that passed field validation (successful or not), with consecutive
ids. -/
theorem bulkRun_media : ∀ (items : List (Option RawItem)) (i : Nat) (db : Db)
    (s : List SuccessEntry) (f : List FailEntry) (db2 : Db),
    bulkRun i items db = .ok (s, f, db2) →
    db2.media = db.media ++ validRowsFrom db.nextMediaId items ∧
    db2.nextMediaId
      = db.nextMediaId + (validRowsFrom db.nextMediaId items).length := by
  intro items
  induction items with
  | nil =>
    intro i db s f db2 h
    obtain ⟨_, _, hdb⟩ := bulkRun_nil_inv i db s f db2 h
    rw [hdb]
    simp [validRowsFrom]
  | cons x rest ih =>
    intro i db s f db2 h
    cases x with
    | none => exact Except.noConfusion h
    | some it =>
      rcases bulkRun_cons_inv i it rest db s f db2 h with
        ⟨msg, f2, hval, hrun, hfeq⟩ | ⟨msg, f2, hval, hp, hrun, hfeq⟩ |
        ⟨N, s2, hval, hp, hrun, hseq⟩
      · have hIH := ih (i + 1) _ s f2 db2 hrun
        simp only [validRowsFrom]
        rw [hval]
        exact hIH
      · have hIH := ih (i + 1) _ s f2 db2 hrun
        simp only [validRowsFrom]
        rw [hval]
        dsimp only at hIH ⊢
        obtain ⟨hm, hn⟩ := hIH
        constructor
        · rw [hm, List.append_assoc, List.singleton_append]
        · rw [hn, List.length_cons]
          omega
      · have hIH := ih (i + 1) _ s2 f db2 hrun
        simp only [validRowsFrom]
        rw [hval]
        dsimp only at hIH ⊢
        rw [setMediaTags_media, setMediaTags_nextMediaId] at hIH
        obtain ⟨hm, hn⟩ := hIH
        constructor
        · rw [hm]
          dsimp only
          rw [List.append_assoc, List.singleton_append]
        · rw [hn]
          dsimp only
          rw [List.length_cons]
          omega

/-- Each success entry corresponds to the item at its index: validation
passed, the tags parsed, the reported title is the item's title, and the
inserted row is in the committed table. -/
theorem bulkRun_success : ∀ (items : List (Option RawItem)) (i : Nat) (db : Db)
    (s : List SuccessEntry) (f : List FailEntry) (db2 : Db),
    bulkRun i items db = .ok (s, f, db2) →
    ∀ e ∈ s, i ≤ e.index ∧ ∃ it, items[e.index - i]? = some (some it) ∧
      validateItem it = none ∧ (∃ N, parseTagsInput it.tags = .ok N) ∧
      e.title = it.title.getD "" ∧ mkRow e.id it ∈ db2.media := by
  intro items
  induction items with
  | nil =>
    intro i db s f db2 h e he
    obtain ⟨hs, _, _⟩ := bulkRun_nil_inv i db s f db2 h
    rw [hs] at he
    exact absurd he (List.not_mem_nil e)
  | cons x rest ih =>
    intro i db s f db2 h e he
    cases x with
    | none => exact Except.noConfusion h
    | some it =>
      rcases bulkRun_cons_inv i it rest db s f db2 h with
        ⟨msg, f2, hval, hrun, hfeq⟩ | ⟨msg, f2, hval, hp, hrun, hfeq⟩ |
        ⟨N, s2, hval, hp, hrun, hseq⟩
      · obtain ⟨hle, it2, hget, hrest⟩ := ih (i + 1) _ s f2 db2 hrun e he
        refine ⟨by omega, it2, ?_, hrest⟩
        have harith : e.index - i = (e.index - (i + 1)) + 1 := by omega
        rw [harith]
        rw [List.getElem?_cons_succ]
        exact hget
      · obtain ⟨hle, it2, hget, hrest⟩ := ih (i + 1) _ s f2 db2 hrun e he
        refine ⟨by omega, it2, ?_, hrest⟩
        have harith : e.index - i = (e.index - (i + 1)) + 1 := by omega
        rw [harith]
        rw [List.getElem?_cons_succ]
        exact hget
      · rw [hseq] at he
        cases he with
        | head =>
          refine ⟨Nat.le_refl i, it, ?_, hval, ⟨N, hp⟩, rfl, ?_⟩
          · have h0 : i - i = 0 := Nat.sub_self i
            rw [h0]
            exact List.getElem?_cons_zero
          · have hm := (bulkRun_media rest (i + 1) _ s2 f db2 hrun).1
            rw [setMediaTags_media] at hm
            dsimp only at hm
            rw [hm]
            apply List.mem_append_left
            exact List.mem_append_right _ (List.mem_singleton.mpr rfl)
        | tail _ hmem =>
          obtain ⟨hle, it2, hget, hrest⟩ := ih (i + 1) _ s2 f db2 hrun e hmem
          refine ⟨by omega, it2, ?_, hrest⟩
          have harith : e.index - i = (e.index - (i + 1)) + 1 := by omega
          rw [harith]
          rw [List.getElem?_cons_succ]
          exact hget

/-- An item that fails field validation is reported in `results.failed`
at its own index. -/
theorem bulkRun_invalid_failed : ∀ (items : List (Option RawItem)) (i : Nat)
    (db : Db) (s : List SuccessEntry) (f : List FailEntry) (db2 : Db),
    bulkRun i items db = .ok (s, f, db2) →
    ∀ (j : Nat) (it : RawItem), items[j]? = some (some it) →
      validateItem it ≠ none → (i + j) ∈ f.map FailEntry.index := by
  intro items
  induction items with
  | nil =>
    intro i db s f db2 h j it hget _
    rw [List.getElem?_nil] at hget
    exact Option.noConfusion hget
  | cons x rest ih =>
    intro i db s f db2 h j it hget hinval
    cases x with
    | none => exact Except.noConfusion h
    | some it0 =>
      rcases bulkRun_cons_inv i it0 rest db s f db2 h with
        ⟨msg, f2, hval, hrun, hfeq⟩ | ⟨msg, f2, hval, hp, hrun, hfeq⟩ |
        ⟨N, s2, hval, hp, hrun, hseq⟩
      · cases j with
        | zero =>
          rw [hfeq, List.map_cons]
          have : i + 0 = i := rfl
          rw [this]
          exact List.mem_cons_self _ _
        | succ k =>
          rw [List.getElem?_cons_succ] at hget
          have := ih (i + 1) _ s f2 db2 hrun k it hget hinval
          rw [hfeq, List.map_cons]
          have harith : i + (k + 1) = (i + 1) + k := by omega
          rw [harith]
          exact List.mem_cons_of_mem _ this
      · cases j with
        | zero =>
          rw [List.getElem?_cons_zero] at hget
          have hit : it = it0 := by
            have := Option.some.inj hget
            exact (Option.some.inj this).symm
          rw [hit] at hinval
          exact absurd hval hinval
        | succ k =>
          rw [List.getElem?_cons_succ] at hget
          have := ih (i + 1) _ s f2 db2 hrun k it hget hinval
          rw [hfeq, List.map_cons]
          have harith : i + (k + 1) = (i + 1) + k := by omega
          rw [harith]
          exact List.mem_cons_of_mem _ this
      · cases j with
        | zero =>
          rw [List.getElem?_cons_zero] at hget
          have hit : it = it0 := by
            have := Option.some.inj hget
            exact (Option.some.inj this).symm
          rw [hit] at hinval
          exact absurd hval hinval
        | succ k =>
          rw [List.getElem?_cons_succ] at hget
          have := ih (i + 1) _ s2 f db2 hrun k it hget hinval
          have harith : i + (k + 1) = (i + 1) + k := by omega
          rw [harith]
          exact this

/-- If every item is a valid object whose tags parse, the whole batch
succeeds: no failure entries and one success entry per item. -/
theorem bulkRun_all_valid : ∀ (items : List (Option RawItem)) (i : Nat)
    (db : Db) (s : List SuccessEntry) (f : List FailEntry) (db2 : Db),
    (∀ x ∈ items, ∃ it, x = some it ∧ validateItem it = none ∧
      ∃ N, parseTagsInput it.tags = .ok N) →
    bulkRun i items db = .ok (s, f, db2) →
    f = [] ∧ s.length = items.length := by
  intro items
  induction items with
  | nil =>
    intro i db s f db2 _ h
    obtain ⟨hs, hf, _⟩ := bulkRun_nil_inv i db s f db2 h
    rw [hs, hf]
    exact ⟨rfl, rfl⟩
  | cons x rest ih =>
    intro i db s f db2 hall h
    obtain ⟨it0, hx, hval0, N0, hp0⟩ := hall x (List.mem_cons_self x rest)
    rw [hx] at h
    have hallrest : ∀ x ∈ rest, ∃ it, x = some it ∧ validateItem it = none ∧
        ∃ N, parseTagsInput it.tags = .ok N :=
      fun x hx2 => hall x (List.mem_cons_of_mem _ hx2)
    rcases bulkRun_cons_inv i it0 rest db s f db2 h with
      ⟨msg, f2, hval, hrun, hfeq⟩ | ⟨msg, f2, hval, hp, hrun, hfeq⟩ |
      ⟨N, s2, hval, hp, hrun, hseq⟩
    · rw [hval0] at hval
      exact Option.noConfusion hval
    · rw [hp0] at hp
      exact Except.noConfusion hp
    · obtain ⟨hf, hlen⟩ := ih (i + 1) _ s2 f db2 hallrest hrun
      refine ⟨hf, ?_⟩
      rw [hseq, List.length_cons, List.length_cons, hlen]

/-- Elements of a parse output are normalized and non-empty. -/
theorem parse_out_props {t : TagsInput} {N : List String}
    (hp : parseTagsInput t = .ok N) :
    ∀ x ∈ N, normalizeTag x = x ∧ 0 < x.length := by
  intro x hx
  obtain ⟨⟨s0, hs0⟩, hlen⟩ := parse_mem hp hx
  refine ⟨?_, hlen⟩
  rw [hs0]
  exact normalizeTag_idem s0

/-- Tag-state tracking along the bulk loop: invariants are preserved,
associations of pre-existing records are untouched, each success entry's
record carries exactly its parsed tag names, and every new association
belongs to a success entry. -/
theorem bulkRun_assoc : ∀ (items : List (Option RawItem)) (i : Nat) (db : Db)
    (s : List SuccessEntry) (f : List FailEntry) (db2 : Db),
    bulkRun i items db = .ok (s, f, db2) →
    TagInv db → MediaInv db →
    TagInv db2 ∧ MediaInv db2 ∧ db.nextMediaId ≤ db2.nextMediaId ∧
    (∀ r name, r < db.nextMediaId →
      hasAssocName db2 r name = hasAssocName db r name) ∧
    (∀ e ∈ s, db.nextMediaId ≤ e.id ∧
      ∃ N, (∃ it, items[e.index - i]? = some (some it) ∧
         parseTagsInput it.tags = .ok N) ∧
        ∀ name, (hasAssocName db2 e.id name = true ↔ name ∈ N)) ∧
    (∀ p ∈ db2.mediaTags, p ∈ db.mediaTags ∨ p.1 ∈ s.map SuccessEntry.id) := by
  intro items
  induction items with
  | nil =>
    intro i db s f db2 h hT hM
    obtain ⟨hs, _, hdb⟩ := bulkRun_nil_inv i db s f db2 h
    subst hdb
    refine ⟨hT, hM, Nat.le_refl _, fun r name _ => rfl, ?_, ?_⟩
    · intro e he
      rw [hs] at he
      exact absurd he (List.not_mem_nil e)
    · intro p hp
      exact Or.inl hp
  | cons x rest ih =>
    intro i db s f db2 h hT hM
    cases x with
    | none => exact Except.noConfusion h
    | some it =>
      rcases bulkRun_cons_inv i it rest db s f db2 h with
        ⟨msg, f2, hval, hrun, hfeq⟩ | ⟨msg, f2, hval, hp, hrun, hfeq⟩ |
        ⟨N, s2, hval, hp, hrun, hseq⟩
      · obtain ⟨hT2, hM2, hmono, hstab, hsucc, hsub⟩ :=
          ih (i + 1) db s f2 db2 hrun hT hM
        refine ⟨hT2, hM2, hmono, hstab, ?_, hsub⟩
        intro e he
        obtain ⟨hid, n, ⟨it2, hget, hpn⟩, hnames⟩ := hsucc e he
        have hle : i + 1 ≤ e.index :=
          (bulkRun_success rest (i + 1) db s f2 db2 hrun e he).1
        refine ⟨hid, n, ⟨it2, ?_, hpn⟩, hnames⟩
        have harith : e.index - i = (e.index - (i + 1)) + 1 := by omega
        rw [harith, List.getElem?_cons_succ]
        exact hget
      · have hM1 : MediaInv
            { db with media := db.media ++ [mkRow db.nextMediaId it],
                      nextMediaId := db.nextMediaId + 1 } := by
          intro p hp2
          exact Nat.lt_succ_of_lt (hM p hp2)
        obtain ⟨hT2, hM2, hmono, hstab, hsucc, hsub⟩ :=
          ih (i + 1) _ s f2 db2 hrun hT hM1
        refine ⟨hT2, hM2, by dsimp only at hmono; omega, ?_, ?_, hsub⟩
        · intro r name hr
          exact hstab r name (by dsimp only; omega)
        · intro e he
          obtain ⟨hid, n, ⟨it2, hget, hpn⟩, hnames⟩ := hsucc e he
          have hle : i + 1 ≤ e.index :=
            (bulkRun_success rest (i + 1) _ s f2 db2 hrun e he).1
          refine ⟨by dsimp only at hid; omega, n, ⟨it2, ?_, hpn⟩, hnames⟩
          have harith : e.index - i = (e.index - (i + 1)) + 1 := by omega
          rw [harith, List.getElem?_cons_succ]
          exact hget
      · -- success step
        have hT1 : TagInv
            { db with media := db.media ++ [mkRow db.nextMediaId it],
                      nextMediaId := db.nextMediaId + 1 } := hT
        have hM1 : MediaInv
            { db with media := db.media ++ [mkRow db.nextMediaId it],
                      nextMediaId := db.nextMediaId + 1 } := by
          intro p hp2
          exact Nat.lt_succ_of_lt (hM p hp2)
        have hT3 : TagInv (setMediaTags db.nextMediaId N
            { db with media := db.media ++ [mkRow db.nextMediaId it],
                      nextMediaId := db.nextMediaId + 1 }) :=
          setMediaTags_inv _ hT1 _ N
        have hM3 : MediaInv (setMediaTags db.nextMediaId N
            { db with media := db.media ++ [mkRow db.nextMediaId it],
                      nextMediaId := db.nextMediaId + 1 }) :=
          setMediaTags_mediaInv _ hM1 _ N (by dsimp only; omega)
        have hn3 : (setMediaTags db.nextMediaId N
            { db with media := db.media ++ [mkRow db.nextMediaId it],
                      nextMediaId := db.nextMediaId + 1 }).nextMediaId
            = db.nextMediaId + 1 := by
          rw [setMediaTags_nextMediaId]
        obtain ⟨hT2, hM2, hmono, hstab, hsucc, hsub⟩ :=
          ih (i + 1) _ s2 f db2 hrun hT3 hM3
        rw [hn3] at hmono hstab
        have hNprops := parse_out_props hp
        refine ⟨hT2, hM2, by omega, ?_, ?_, ?_⟩
        · intro r name hr
          rw [hstab r name (by omega)]
          rw [setMediaTags_assoc_other _ hT1 _ N r name (by omega)]
          rfl
        · intro e he
          rw [hseq] at he
          cases he with
          | head =>
            refine ⟨Nat.le_refl _, N, ⟨it, ?_, hp⟩, ?_⟩
            · have h0 : i - i = 0 := Nat.sub_self i
              rw [h0]
              exact List.getElem?_cons_zero
            · intro name
              rw [hstab db.nextMediaId name (by omega)]
              rw [setMediaTags_assoc_self _ hT1 _ N name]
              exact assoc_norm_set N hNprops name
          | tail _ hmem =>
            obtain ⟨hid, n, ⟨it2, hget, hpn⟩, hnames⟩ := hsucc e hmem
            have hle : i + 1 ≤ e.index :=
              (bulkRun_success rest (i + 1) _ s2 f db2 hrun e hmem).1
            refine ⟨by omega, n, ⟨it2, ?_, hpn⟩, hnames⟩
            have harith : e.index - i = (e.index - (i + 1)) + 1 := by omega
            rw [harith, List.getElem?_cons_succ]
            exact hget
        · intro p hp2
          cases hsub p hp2 with
          | inr hin =>
            right
            rw [hseq, List.map_cons]
            exact List.mem_cons_of_mem _ hin
          | inl hin =>
            cases setMediaTags_mem_sub _ _ N p hin with
            | inl hin2 => exact Or.inl hin2
            | inr hin2 =>
              right
              rw [hseq, List.map_cons]
              rw [hin2]
              exact List.mem_cons_self _ _

theorem mediaInv_emptyDb : MediaInv emptyDb := by
  intro p hp
  simp [emptyDb] at hp

/-- Reduction of the bulk endpoint on an accepted batch. -/
theorem bulkEndpoint_run (items : List (Option RawItem)) (db : Db)
    (h1 : 1 ≤ items.length) (h2 : items.length ≤ 200)
    (s : List SuccessEntry) (f : List FailEntry) (db2 : Db)
    (hrun : bulkRun 0 items db = .ok (s, f, db2)) :
    bulkEndpoint (some items) db
      = ⟨if f.length = 0 then 201 else 207, s, f, items.length, db2⟩ := by
  unfold bulkEndpoint
  dsimp only
  rw [if_neg (by omega), if_neg (by omega), hrun]

/-- C1 counterexample: a batch consisting of one JSON `null` item (n = 1)
is destructured before the per-item try, throws, rolls the transaction
back and answers 500 with no results: index 0 appears in neither
`results.success` nor `results.failed`. -/
theorem c1_counterexample :
    (bulkEndpoint (some [none]) emptyDb).status = 500 ∧
    (bulkEndpoint (some [none]) emptyDb).success = [] ∧
    (bulkEndpoint (some [none]) emptyDb).failed = [] :=
  ⟨rfl, rfl, rfl⟩

/-- C1 (amended): for every bulk batch of 1-200 non-null (object) items,
each item is processed independently: the reported total is n, every
index 0..n-1 appears in exactly one of `results.success` /
`results.failed`, each failure entry carries a non-empty human-readable
message, each success entry carries the item's title and its inserted
row's id, and an item that fails field validation is reported in
`results.failed` at its own index. -/
theorem c1_bulk_partition (items : List (Option RawItem)) (db : Db)
    (h1 : 1 ≤ items.length) (h2 : items.length ≤ 200)
    (hnn : ∀ x ∈ items, x ≠ none) :
    (bulkEndpoint (some items) db).total = items.length ∧
    ((bulkEndpoint (some items) db).success.map SuccessEntry.index ++
      (bulkEndpoint (some items) db).failed.map FailEntry.index).Perm
      (List.range items.length) ∧
    (∀ e ∈ (bulkEndpoint (some items) db).failed, e.error ≠ "") ∧
    (∀ e ∈ (bulkEndpoint (some items) db).success,
      ∃ it, items[e.index]? = some (some it) ∧ e.title = it.title.getD "" ∧
        mkRow e.id it ∈ (bulkEndpoint (some items) db).db.media) ∧
    (∀ (j : Nat) (it : RawItem), items[j]? = some (some it) →
      validateItem it ≠ none →
      j ∈ (bulkEndpoint (some items) db).failed.map FailEntry.index) := by
  obtain ⟨s, f, db2, hrun⟩ := bulkRun_ok items 0 db hnn
  rw [bulkEndpoint_run items db h1 h2 s f db2 hrun]
  dsimp only
  refine ⟨rfl, ?_, ?_, ?_, ?_⟩
  · rw [List.range_eq_range']
    exact bulkRun_perm items 0 db s f db2 hrun
  · exact bulkRun_msgs items 0 db s f db2 hrun
  · intro e he
    obtain ⟨_, it, hget, _, _, htitle, hrow⟩ :=
      bulkRun_success items 0 db s f db2 hrun e he
    rw [Nat.sub_zero] at hget
    exact ⟨it, hget, htitle, hrow⟩
  · intro j it hget hinval
    have := bulkRun_invalid_failed items 0 db s f db2 hrun j it hget hinval
    rw [Nat.zero_add] at this
    exact this

/-- Witness for C1 (amended) on a concrete two-item batch (one valid,
one with an invalid media type). -/
theorem c1_bulk_partition_witness :
    (bulkEndpoint (some [some sampleItem, some badTypeItem]) emptyDb).total
      = ([some sampleItem, some badTypeItem] : List (Option RawItem)).length ∧
    ((bulkEndpoint (some [some sampleItem, some badTypeItem]) emptyDb).success.map
        SuccessEntry.index ++
      (bulkEndpoint (some [some sampleItem, some badTypeItem]) emptyDb).failed.map
        FailEntry.index).Perm
      (List.range ([some sampleItem, some badTypeItem] : List (Option RawItem)).length) :=
  ⟨(c1_bulk_partition [some sampleItem, some badTypeItem] emptyDb
      (by decide) (by decide) (by decide)).1,
   (c1_bulk_partition [some sampleItem, some badTypeItem] emptyDb
      (by decide) (by decide) (by decide)).2.1⟩

/-- C2 counterexample: a single-item batch whose item passes field
validation but whose `tags` array contains a non-string.  The media row
is inserted, `tag.trim()` then throws, the item is reported in
`results.failed` - yet the committed state contains its media row, so
the committed rows are not exactly those of `results.success` (which is
empty). -/
theorem c2_counterexample :
    (bulkEndpoint (some [some badTagsItem]) emptyDb).success = [] ∧
    (bulkEndpoint (some [some badTagsItem]) emptyDb).failed.length = 1 ∧
    (bulkEndpoint (some [some badTagsItem]) emptyDb).db.media.length = 1 :=
  ⟨rfl, rfl, rfl⟩

/-- C2 (amended): for every bulk batch of 1-200 non-null items, an item
that fails field validation performs no writes, but an item that fails
during tag processing after its record insert leaves its media row in
the committed state: the committed media table is exactly the prior rows
plus one row per item that passed field validation; every committed
association either pre-existed or belongs to an item reported in
`results.success`; and each success entry's record carries exactly its
parsed tag names. -/
theorem c2_bulk_writes (items : List (Option RawItem)) (db : Db)
    (h1 : 1 ≤ items.length) (h2 : items.length ≤ 200)
    (hnn : ∀ x ∈ items, x ≠ none) (hT : TagInv db) (hM : MediaInv db) :
    (bulkEndpoint (some items) db).db.media
      = db.media ++ validRowsFrom db.nextMediaId items ∧
    (∀ p ∈ (bulkEndpoint (some items) db).db.mediaTags,
      p ∈ db.mediaTags ∨
        p.1 ∈ (bulkEndpoint (some items) db).success.map SuccessEntry.id) ∧
    (∀ e ∈ (bulkEndpoint (some items) db).success,
      ∃ N, (∃ it, items[e.index]? = some (some it) ∧
          parseTagsInput it.tags = .ok N) ∧
        ∀ name,
          (hasAssocName (bulkEndpoint (some items) db).db e.id name = true ↔
            name ∈ N)) := by
  obtain ⟨s, f, db2, hrun⟩ := bulkRun_ok items 0 db hnn
  rw [bulkEndpoint_run items db h1 h2 s f db2 hrun]
  dsimp only
  obtain ⟨hT2, hM2, hmono, hstab, hsucc, hsub⟩ :=
    bulkRun_assoc items 0 db s f db2 hrun hT hM
  refine ⟨(bulkRun_media items 0 db s f db2 hrun).1, hsub, ?_⟩
  intro e he
  obtain ⟨_, N, ⟨it, hget, hpn⟩, hnames⟩ := hsucc e he
  rw [Nat.sub_zero] at hget
  exact ⟨N, ⟨it, hget, hpn⟩, hnames⟩

/-- Witness for C2 (amended) on a concrete batch (one fully valid item,
one item failing at the tags stage). -/
theorem c2_bulk_writes_witness :
    (bulkEndpoint (some [some sampleItem, some badTagsItem]) emptyDb).db.media
      = emptyDb.media ++
        validRowsFrom emptyDb.nextMediaId [some sampleItem, some badTagsItem] ∧
    (∀ p ∈ (bulkEndpoint (some [some sampleItem, some badTagsItem]) emptyDb).db.mediaTags,
      p ∈ emptyDb.mediaTags ∨
        p.1 ∈ (bulkEndpoint (some [some sampleItem, some badTagsItem]) emptyDb).success.map
          SuccessEntry.id) :=
  ⟨(c2_bulk_writes [some sampleItem, some badTagsItem] emptyDb (by decide)
      (by decide) (by decide) tagInv_emptyDb mediaInv_emptyDb).1,
   (c2_bulk_writes [some sampleItem, some badTagsItem] emptyDb (by decide)
      (by decide) (by decide) tagInv_emptyDb mediaInv_emptyDb).2.1⟩

/-- C3 counterexample: the shape-valid (accepted) batch
`[validItem, null]` produces status 500 - neither 201 nor 207 - because
the `null` item's destructuring throws outside the per-item catch, so
the outcome is not classified solely by the failure count. -/
theorem c3_counterexample :
    (bulkEndpoint (some [some plainItem, none]) emptyDb).status = 500 ∧
    (500 : Nat) ≠ 201 ∧ (500 : Nat) ≠ 207 :=
  ⟨rfl, by decide, by decide⟩

/-- C3 (amended): for every accepted bulk batch of 1-200 non-null
items, the outcome is classified solely by the failure count: status 201
exactly when there are zero failure entries and status 207 exactly when
there is at least one - including the boundary case where every item
fails. -/
theorem c3_bulk_status (items : List (Option RawItem)) (db : Db)
    (h1 : 1 ≤ items.length) (h2 : items.length ≤ 200)
    (hnn : ∀ x ∈ items, x ≠ none) :
    ((bulkEndpoint (some items) db).status = 201 ↔
      (bulkEndpoint (some items) db).failed = []) ∧
    ((bulkEndpoint (some items) db).status = 207 ↔
      (bulkEndpoint (some items) db).failed ≠ []) := by
  obtain ⟨s, f, db2, hrun⟩ := bulkRun_ok items 0 db hnn
  rw [bulkEndpoint_run items db h1 h2 s f db2 hrun]
  dsimp only
  by_cases hf : f.length = 0
  · rw [if_pos hf]
    have hf2 : f = [] := List.length_eq_zero.mp hf
    rw [hf2]
    constructor
    · exact ⟨fun _ => rfl, fun _ => rfl⟩
    · constructor
      · intro hcon
        exact absurd hcon (by decide)
      · intro hcon
        exact absurd rfl hcon
  · rw [if_neg hf]
    have hf2 : f ≠ [] := by
      intro hcon
      rw [hcon] at hf
      exact hf rfl
    constructor
    · constructor
      · intro hcon
        exact absurd hcon (by decide)
      · intro hcon
        exact absurd hcon hf2
    · exact ⟨fun _ => hf2, fun _ => rfl⟩

/-- Witness for C3 (amended) at the all-fail boundary: a batch whose
single item fails validation still gets the partial-success status. -/
theorem c3_bulk_status_witness :
    ((bulkEndpoint (some [some badTypeItem]) emptyDb).status = 201 ↔
      (bulkEndpoint (some [some badTypeItem]) emptyDb).failed = []) ∧
    ((bulkEndpoint (some [some badTypeItem]) emptyDb).status = 207 ↔
      (bulkEndpoint (some [some badTypeItem]) emptyDb).failed ≠ []) :=
  c3_bulk_status [some badTypeItem] emptyDb (by decide) (by decide) (by decide)

/-- C4: a bulk request whose `items` field is not a non-empty array, or
has more than 200 entries, is rejected with 400 and the whole state -
returned unchanged - is untouched (the checks run before
`BEGIN TRANSACTION`); conversely a batch of exactly 200 valid items is
accepted and fully processed: status 201, 200 success entries, no
failures. -/
theorem c4_bulk_shape (db : Db) (itemsField : Option (List (Option RawItem))) :
    ((itemsField = none ∨ ∃ items, itemsField = some items ∧
        (items.length = 0 ∨ 200 < items.length)) →
      bulkEndpoint itemsField db = ⟨400, [], [], 0, db⟩) ∧
    (∀ items, itemsField = some items → items.length = 200 →
      (∀ x ∈ items, ∃ it, x = some it ∧ validateItem it = none ∧
        ∃ N, parseTagsInput it.tags = .ok N) →
      (bulkEndpoint itemsField db).status = 201 ∧
      (bulkEndpoint itemsField db).success.length = 200 ∧
      (bulkEndpoint itemsField db).failed = []) := by
  constructor
  · rintro (hnone | ⟨items, hsome, hbad⟩)
    · rw [hnone]
      rfl
    · rw [hsome]
      unfold bulkEndpoint
      dsimp only
      cases hbad with
      | inl h0 => rw [if_pos h0]
      | inr hbig =>
        rw [if_neg (by omega), if_pos hbig]
  · intro items hsome hlen hvalid
    rw [hsome]
    have hnn : ∀ x ∈ items, x ≠ none := by
      intro x hx
      obtain ⟨it, hit, _⟩ := hvalid x hx
      rw [hit]
      exact Option.noConfusion
    obtain ⟨s, f, db2, hrun⟩ := bulkRun_ok items 0 db hnn
    obtain ⟨hf, hslen⟩ := bulkRun_all_valid items 0 db s f db2 hvalid hrun
    rw [bulkEndpoint_run items db (by omega) (by omega) s f db2 hrun]
    dsimp only
    rw [hf]
    exact ⟨rfl, by rw [hslen, hlen], rfl⟩

/-- Witness for C4: a non-array `items` field is rejected untouched, and
a 200-item batch of identical valid items fully succeeds. -/
theorem c4_bulk_shape_witness :
    bulkEndpoint (none : Option (List (Option RawItem))) emptyDb
      = ⟨400, [], [], 0, emptyDb⟩ ∧
    ((bulkEndpoint (some (List.replicate 200 (some plainItem))) emptyDb).status
        = 201 ∧
     (bulkEndpoint (some (List.replicate 200 (some plainItem))) emptyDb).success.length
        = 200 ∧
     (bulkEndpoint (some (List.replicate 200 (some plainItem))) emptyDb).failed
        = []) :=
  ⟨(c4_bulk_shape emptyDb none).1 (Or.inl rfl),
   (c4_bulk_shape emptyDb (some (List.replicate 200 (some plainItem)))).2
     (List.replicate 200 (some plainItem)) rfl (List.length_replicate 200 _)
     (fun x hx => by
       rw [List.eq_of_mem_replicate hx]
       exact ⟨plainItem, rfl, rfl, [], rfl⟩)⟩
